import Mathlib

/-!
Verification of the `mba-wasm` crate: a shallow embedding of its modular
arithmetic, congruence solver, polynomial algebra and MBA rewriter over
`ℤ/2^w`, together with proofs of the specified properties.
-/

set_option maxHeartbeats 1000000

namespace Mba

/-- The ring of `w`-bit machine integers, `ℤ/2^w`.  Elements are stored by
their least non-negative representative (`ZMod.val`).  This models the Rust
types `Wrapping<uK>` (with `w = K`) and `Bits<N>` (with `w = N ≤ 63`). -/
abbrev M (w : ℕ) := ZMod (2 ^ w)

instance (w : ℕ) : NeZero (2 ^ w) := ⟨(Nat.pos_pow_of_pos w (by norm_num)).ne'⟩

/-- Division on `ℤ/2^w` is ordinary integer division of the representatives
(Rust `impl Div for Wrapping<uK>` and `impl Div for Bits<N>`). -/
def mdiv {w : ℕ} (a b : M w) : M w := ((a.val / b.val : ℕ) : M w)

/-- The representative-order comparison `a < b` used by `Ord` on the Rust side. -/
def mlt {w : ℕ} (a b : M w) : Prop := a.val < b.val

/-- `UnsignedInt::print_negative` for `Wrapping<uK>`:
`self.0 > (1 << (BITS - 1))` (note the strict `>`). -/
def printNegativeWrapping (w : ℕ) (x : M w) : Bool := decide (2 ^ (w - 1) < x.val)

/-- `Bits::<N>::print_negative`: `self.0.0 > (1 << (N - 1))` (strict `>`). -/
def printNegativeBits (w : ℕ) (x : M w) : Bool := decide (2 ^ (w - 1) < x.val)

/-- `impl Sub for Bits<N>`: the source computes `Self(self.0 + rhs.0).m()`,
i.e. it ADDS the two representatives and masks to `N` bits. -/
def bitsSub {w : ℕ} (a b : M w) : M w := a + b

/-- `impl SubAssign for Bits<N>`: `self.0 -= rhs.0; self.0 &= Self::MASK`,
wrapping subtraction of representatives followed by masking. -/
def bitsSubAssign {w : ℕ} (a b : M w) : M w := a - b

/-- C7 (counterexample): at width 8 the value `128 = 2^7` has its high bit set,
yet `print_negative` returns `false`, because the source uses a strict `>`
comparison.  So "true iff `x ≥ 2^(n-1)`" fails. -/
theorem printNegative_not_ge_iff :
    ¬ (printNegativeWrapping 8 ((128 : ℕ) : M 8) = true ↔
        2 ^ (8 - 1) ≤ ((128 : ℕ) : M 8).val) := by
  decide

/-- C7 (amended): for every width `w` and every `x : ℤ/2^w`, `print_negative x`
returns `true` if and only if `x`'s representative is STRICTLY greater than
`2^(w-1)`, for both the `Wrapping<uK>` and the `Bits<N>` implementation. -/
theorem printNegative_iff_gt (w : ℕ) (x : M w) :
    (printNegativeWrapping w x = true ↔ 2 ^ (w - 1) < x.val) ∧
    (printNegativeBits w x = true ↔ 2 ^ (w - 1) < x.val) := by
  exact ⟨decide_eq_true_iff, decide_eq_true_iff⟩

/-- Bitwise AND of representatives (`impl BitAnd`). -/
def bitAnd {w : ℕ} (a b : M w) : M w := ((a.val &&& b.val : ℕ) : M w)

/-- Bitwise OR of representatives (`impl BitOr`). -/
def bitOr {w : ℕ} (a b : M w) : M w := ((a.val ||| b.val : ℕ) : M w)

/-- Bitwise XOR of representatives (`impl BitXor`). -/
def bitXor {w : ℕ} (a b : M w) : M w := ((a.val ^^^ b.val : ℕ) : M w)

/-- Bitwise complement of the low `w` bits (`impl Not`); on representatives
this is exactly `2^w - 1 - val`, with no borrow. -/
def bitNot {w : ℕ} (a : M w) : M w := ((2 ^ w - 1 - a.val : ℕ) : M w)

/-- C8 (code bug): `Bits::<N>::sub` adds instead of subtracting.  At width 3,
`1 - 1` evaluates to `2`, whereas subtraction mod `2^3` would give `0`; in
particular `(a - b) + b = a` fails at `a = b = 1`.  The companion
`SubAssign` implementation performs the correct wrapping subtraction. -/
theorem bitsSub_is_add_bug :
    bitsSub (1 : M 3) (1 : M 3) = 2 ∧
    bitsSub (1 : M 3) (1 : M 3) + 1 ≠ (1 : M 3) ∧
    bitsSubAssign (1 : M 3) (1 : M 3) = 0 := by
  refine ⟨by decide, by decide, by decide⟩

/-! ## Polynomials (`polynomial.rs`)

A `Polynomial<T>` is a plain coefficient vector `[a₀, a₁, …]`, lowest degree
first; we model it as a `List (M w)`. -/

/-- `Polynomial::eval`: Horner's method, iterating the coefficients from the
highest degree down (`r = r*x + c`), starting from `0` for the empty list. -/
def evalPoly {w : ℕ} (coeffs : List (M w)) (x : M w) : M w :=
  coeffs.foldr (fun c r => r * x + c) 0

/-- `impl SubAssign<&Polynomial<T>>`: subtract pointwise over the common
length; `self`'s extra coefficients stay in place; `rhs`'s extra
coefficients are appended negated (`T::zero() - *c`). -/
def polySubAssign {w : ℕ} (p q : List (M w)) : List (M w) :=
  (List.zipWith (fun l r => l - r) p q) ++ p.drop q.length
    ++ (q.drop p.length).map (fun c => 0 - c)

theorem evalPoly_nil {w : ℕ} (x : M w) : evalPoly [] x = 0 := rfl

theorem evalPoly_cons {w : ℕ} (a : M w) (l : List (M w)) (x : M w) :
    evalPoly (a :: l) x = evalPoly l x * x + a := rfl

theorem evalPoly_map_neg {w : ℕ} (q : List (M w)) (x : M w) :
    evalPoly (q.map (fun c => 0 - c)) x = 0 - evalPoly q x := by
  induction q with
  | nil => simp [evalPoly]
  | cons b q ih =>
      simp only [List.map_cons, evalPoly_cons, ih]
      ring

/-- C10: `p -= &q` evaluates, at every point, to the difference of the
evaluations, including when `q` has more coefficients than `p`. -/
theorem polySubAssign_eval {w : ℕ} (p q : List (M w)) (x : M w) :
    evalPoly (polySubAssign p q) x = evalPoly p x - evalPoly q x := by
  induction p generalizing q with
  | nil =>
      simp only [polySubAssign, List.zipWith_nil_left, List.drop_nil,
        List.length_nil, List.drop_zero, List.nil_append, evalPoly_nil]
      rw [evalPoly_map_neg]
  | cons a p ih =>
      cases q with
      | nil =>
          simp [polySubAssign, evalPoly_nil]
      | cons b q =>
          have : polySubAssign (a :: p) (b :: q) =
              (a - b) :: polySubAssign p q := by
            simp [polySubAssign]
          rw [this, evalPoly_cons, ih, evalPoly_cons, evalPoly_cons]
          ring

/-! ## Permutation-polynomial predicate (`pages/perm_poly.rs`) -/

/-- `Iterator::step_by(2)`: every other element, starting with the first. -/
def stepTwo {α : Type} : List α → List α
  | [] => []
  | [a] => [a]
  | a :: _ :: rest => a :: stepTwo rest

/-- `fn parity`: the `Iterator::fold` step that flips the accumulator on odd
entries (`*i & T::one() != T::zero()`). -/
def parity {w : ℕ} (acc : Bool) (i : M w) : Bool :=
  if bitAnd i 1 ≠ 0 then !acc else acc

/-- `fn is_perm_poly`: `a₁` exists and is odd, and the two alternating
coefficient sub-lists starting at index 2 resp. 3 each contain an even
number of odd entries. -/
def isPermPoly {w : ℕ} (f : List (M w)) : Bool :=
  (match f.get? 1 with
   | some i => decide (bitAnd i 1 ≠ 0)
   | none => false)
  && (stepTwo (f.drop 2)).foldl parity true
  && (stepTwo (f.drop 3)).foldl parity true

theorem land_one_ne_zero_iff {w : ℕ} (hw : 0 < w) (i : M w) :
    bitAnd i 1 ≠ 0 ↔ i.val % 2 = 1 := by
  haveI : Fact (1 < 2 ^ w) := ⟨Nat.one_lt_two_pow_iff.mpr hw.ne'⟩
  have h1 : (1 : M w).val = 1 := ZMod.val_one _
  have hml : bitAnd i 1 = ((i.val % 2 : ℕ) : M w) := by
    unfold bitAnd
    rw [h1, Nat.and_one_is_mod]
  rw [hml]
  rcases Nat.mod_two_eq_zero_or_one i.val with h | h <;> rw [h]
  · simp
  · simp [one_ne_zero]

theorem foldl_parity {w : ℕ} (hw : 0 < w) (l : List (M w)) (acc : Bool) :
    l.foldl parity acc = xor acc (decide ((l.map ZMod.val).sum % 2 = 1)) := by
  induction l generalizing acc with
  | nil => simp
  | cons a l ih =>
      rw [List.foldl_cons, ih]
      have hp : parity acc a = xor acc (decide (a.val % 2 = 1)) := by
        unfold parity
        rcases Nat.mod_two_eq_zero_or_one a.val with h | h
        · rw [if_neg] <;> simp [land_one_ne_zero_iff hw, h]
        · rw [if_pos] <;> simp [land_one_ne_zero_iff hw, h]
      rw [hp, List.map_cons, List.sum_cons, Nat.add_mod]
      rcases Nat.mod_two_eq_zero_or_one a.val with h | h <;>
        rcases Nat.mod_two_eq_zero_or_one (l.map ZMod.val).sum with h2 | h2 <;>
        simp [h, h2, Bool.xor_assoc]

theorem stepTwo_sum {α : Type} (g : α → ℕ) :
    ∀ (l : List α) (n : ℕ), l.length ≤ 2 * n →
    ((stepTwo l).map g).sum =
      ∑ i ∈ Finset.range n, (((l.get? (2 * i)).map g).getD 0)
  | [], n, _ => by
      have : ∀ i, ((([] : List α).get? (2 * i)).map g).getD 0 = 0 := by
        intro i; rfl
      rw [Finset.sum_congr rfl fun i _ => this i]
      simp [stepTwo]
  | [a], n, h => by
      obtain ⟨m, rfl⟩ : ∃ m, n = m + 1 := by
        cases n with
        | zero => simp at h
        | succ m => exact ⟨m, rfl⟩
      rw [Finset.sum_range_succ']
      have hz : ∀ i, (([a].get? (2 * (i + 1))).map g).getD 0 = 0 := by
        intro i
        have h2 : [a].get? (2 * (i + 1)) = none := by
          rw [List.get?_eq_none]
          simp; omega
        rw [h2]; rfl
      rw [Finset.sum_congr rfl fun i _ => hz i]
      simp [stepTwo]
  | a :: b :: rest, n, h => by
      obtain ⟨m, rfl⟩ : ∃ m, n = m + 1 := by
        cases n with
        | zero => simp at h
        | succ m => exact ⟨m, rfl⟩
      rw [Finset.sum_range_succ']
      have hrec := stepTwo_sum g rest m (by
        simp only [List.length_cons] at h; omega)
      have hsh : ∀ i, (((a :: b :: rest).get? (2 * (i + 1))).map g).getD 0 =
          ((rest.get? (2 * i)).map g).getD 0 := by
        intro i
        have h2 : 2 * (i + 1) = (2 * i) + 1 + 1 := by ring
        rw [h2]
        rfl
      rw [Finset.sum_congr rfl fun i _ => hsh i]
      simp only [stepTwo, List.map_cons, List.sum_cons, hrec]
      have : (((a :: b :: rest).get? (2 * 0)).map g).getD 0 = g a := rfl
      rw [this]
      omega

theorem getD_val {w : ℕ} (f : List (M w)) (k : ℕ) :
    ((f.get? k).map ZMod.val).getD 0 = (f.getD k 0).val := by
  rw [List.getD_eq_get?]
  cases h : f.get? k with
  | none => simp [h, ZMod.val_zero]
  | some a => simp [h]

theorem parity_fold_even {w : ℕ} (hw : 0 < w) (f : List (M w)) (k : ℕ) :
    ((stepTwo (f.drop k)).foldl parity true = true ↔
      (∑ i ∈ Finset.range f.length, (f.getD (k + 2 * i) 0).val) % 2 = 0) := by
  rw [foldl_parity hw]
  have hlen : (f.drop k).length ≤ 2 * f.length := by
    rw [List.length_drop]; omega
  rw [stepTwo_sum ZMod.val (f.drop k) f.length hlen]
  have hcg : ∀ i, (((f.drop k).get? (2 * i)).map ZMod.val).getD 0
      = (f.getD (k + 2 * i) 0).val := by
    intro i
    rw [List.get?_drop, getD_val]
  rw [Finset.sum_congr rfl fun i _ => hcg i]
  rcases Nat.mod_two_eq_zero_or_one
    (∑ i ∈ Finset.range f.length, (f.getD (k + 2 * i) 0).val) with h | h <;>
    simp [h]

/-- C9: `is_perm_poly f` returns `true` iff `a₁` is odd, the sum
`a₂ + a₄ + a₆ + ⋯` is even and the sum `a₃ + a₅ + a₇ + ⋯` is even, missing
coefficients counting as 0 (so a polynomial with fewer than two coefficients
is rejected, its `a₁` being 0). -/
theorem isPermPoly_iff {w : ℕ} (hw : 0 < w) (f : List (M w)) :
    isPermPoly f = true ↔
      ((f.getD 1 0).val % 2 = 1 ∧
       (∑ i ∈ Finset.range f.length, (f.getD (2 + 2 * i) 0).val) % 2 = 0 ∧
       (∑ i ∈ Finset.range f.length, (f.getD (3 + 2 * i) 0).val) % 2 = 0) := by
  have hfst : (match f.get? 1 with
      | some i => decide (bitAnd i 1 ≠ 0)
      | none => false) = true ↔ (f.getD 1 0).val % 2 = 1 := by
    cases h : f.get? 1 with
    | none =>
        rw [List.getD_eq_get?, h]
        simp [ZMod.val_zero]
    | some a =>
        rw [List.getD_eq_get?, h]
        simp [land_one_ne_zero_iff hw]
  unfold isPermPoly
  simp only [Bool.and_eq_true]
  rw [hfst, parity_fold_even hw f 2, parity_fold_even hw f 3]
  tauto

/-- Witness for `isPermPoly_iff` at `w = 8`, `f = [0, 1]` (the identity
polynomial `X`, which is a permutation). -/
theorem isPermPoly_iff_witness :
    (0 < 8) ∧
    (isPermPoly (w := 8) [0, 1] = true ↔
      ((([0, 1] : List (M 8)).getD 1 0).val % 2 = 1 ∧
       (∑ i ∈ Finset.range ([0, 1] : List (M 8)).length,
         (([0, 1] : List (M 8)).getD (2 + 2 * i) 0).val) % 2 = 0 ∧
       (∑ i ∈ Finset.range ([0, 1] : List (M 8)).length,
         (([0, 1] : List (M 8)).getD (3 + 2 * i) 0).val) % 2 = 0)) :=
  ⟨by decide, isPermPoly_iff (by decide) [0, 1]⟩

/-! ## Scalar congruences (`congruence_solver.rs`, `solve_scalar_congruence`)

The Rust loop runs the extended Euclidean algorithm on `(a, 2^w)` with the
remainders and Bezout coefficients stored in `ℤ/2^w`; since `2^w` does not
fit, the first quotient is hand-computed as `(0 - a)/a + 1`. -/

theorem mdiv_mul_val_le {w : ℕ} (x y : M w) :
    (mdiv x y * y).val ≤ x.val := by
  have hq : x.val / y.val ≤ x.val := Nat.div_le_self _ _
  have hql : x.val / y.val < 2 ^ w := lt_of_le_of_lt hq (ZMod.val_lt x)
  have h1 : (mdiv x y).val = x.val / y.val := ZMod.val_cast_of_lt hql
  rw [ZMod.val_mul, h1]
  calc x.val / y.val * y.val % 2 ^ w ≤ x.val / y.val * y.val :=
        Nat.mod_le _ _
    _ ≤ x.val := Nat.div_mul_le_self _ _

/-- The wrapped remainder update `old_r - (old_r / r) * r` computes the exact
natural remainder `old_r.val % r.val`: nothing wraps. -/
theorem sub_mdiv_mul_val {w : ℕ} (x y : M w) :
    (x - mdiv x y * y).val = x.val - (mdiv x y * y).val := by
  exact ZMod.val_sub (mdiv_mul_val_le x y)

theorem sub_mdiv_mul_val_mod {w : ℕ} (x y : M w) :
    (x - mdiv x y * y).val = x.val % y.val := by
  rw [sub_mdiv_mul_val]
  have hq : x.val / y.val < 2 ^ w :=
    lt_of_le_of_lt (Nat.div_le_self _ _) (ZMod.val_lt x)
  have h0 : (mdiv x y).val = x.val / y.val := ZMod.val_cast_of_lt hq
  have h1 : (mdiv x y * y).val = x.val / y.val * y.val := by
    rw [ZMod.val_mul, h0]
    exact Nat.mod_eq_of_lt
      (lt_of_le_of_lt (Nat.div_mul_le_self _ _) (ZMod.val_lt x))
  rw [h1]
  have h2 : x.val / y.val * y.val + x.val % y.val = x.val :=
    Nat.div_add_mod' x.val y.val
  omega

/-- The main loop of `solve_scalar_congruence` after its first (special)
iteration: state `(old_r, r, old_t, t)`; each pass computes
`q = old_r / r`, replaces `(old_r, r) ← (r, old_r - q*r)` and
`(old_t, t) ← (t, old_t - q*t)`, and stops when the new remainder is zero,
returning `(gcd, old_t, t)`.  (The `r = 0` guard is the loop's break test.) -/
def euclidLoop {w : ℕ} (old_r r old_t t : M w) : M w × M w × M w :=
  if h : r = 0 then (old_r, old_t, t)
  else
    let q := mdiv old_r r
    let r' := old_r - q * r
    let t' := old_t - q * t
    if r' = 0 then (r, t, t')
    else euclidLoop r r' t t'
termination_by r.val
decreasing_by
  rw [sub_mdiv_mul_val_mod]
  refine Nat.mod_lt _ (Nat.pos_of_ne_zero ?_)
  intro hv
  exact h ((ZMod.val_eq_zero r).mp hv)

/-- `euclidLoop` with explicit fuel, for executability: structurally equal to
`euclidLoop` whenever `fuel > r.val` (`euclidFuel_eq_loop`), which always
holds for the fuel used below, since the remainder strictly decreases. -/
def euclidFuel {w : ℕ} : ℕ → M w → M w → M w → M w → M w × M w × M w
  | 0, old_r, _, old_t, t => (old_r, old_t, t)
  | fuel + 1, old_r, r, old_t, t =>
    if r = 0 then (old_r, old_t, t)
    else
      let q := mdiv old_r r
      let r' := old_r - q * r
      let t' := old_t - q * t
      if r' = 0 then (r, t, t')
      else euclidFuel fuel r r' t t'

theorem euclidFuel_eq_loop {w : ℕ} :
    ∀ (fuel : ℕ) (old_r r old_t t : M w), r.val < fuel →
      euclidFuel fuel old_r r old_t t = euclidLoop old_r r old_t t := by
  intro fuel
  induction fuel with
  | zero => intro _ r _ _ h; omega
  | succ fuel ih =>
    intro old_r r old_t t hf
    rw [euclidFuel, euclidLoop]
    by_cases hr : r = 0
    · rw [if_pos hr, dif_pos hr]
    · rw [if_neg hr, dif_neg hr]
      by_cases hz : old_r - mdiv old_r r * r = 0
      · rw [if_pos hz, if_pos hz]
      · rw [if_neg hz, if_neg hz]
        refine ih r _ t _ ?_
        have h1 : (old_r - mdiv old_r r * r).val < r.val := by
          rw [sub_mdiv_mul_val_mod]
          refine Nat.mod_lt _ (Nat.pos_of_ne_zero ?_)
          intro hv
          exact hr ((ZMod.val_eq_zero r).mp hv)
        omega

/-- `solve_scalar_congruence(a, b)`: returns `none` ("no solution") or
`some (x, k)` so that `x + t·k` enumerates solutions of `a·x = b`.
The unused local `kern = min(t, 0 - t)` of the source is omitted. -/
def solveScalarCongruence {w : ℕ} (a b : M w) : Option (M w × M w) :=
  if a = 0 then
    if b = 0 then some (0, 1) else none
  else
    let q := mdiv (0 - a) a + 1
    let r1 := (0 : M w) - q * a
    let t1 := (0 : M w) - q * 1
    let res := euclidFuel a.val a r1 1 t1
    let g := res.1
    let x := mdiv b g * res.2.1
    if a * x ≠ b then none else some (x, res.2.2)

/-- Exact (unwrapped) shadow of `euclidLoop`: natural remainders, integer
Bezout coefficients.  Same control structure as `euclidLoop`. -/
def euclidExact (old_r r : ℕ) (old_t t : ℤ) : ℕ × ℤ × ℤ :=
  if hr : r = 0 then (old_r, old_t, t)
  else
    let q : ℕ := old_r / r
    let r' := old_r % r
    let t' := old_t - (q : ℤ) * t
    if r' = 0 then (r, t, t')
    else euclidExact r r' t t'
termination_by r
decreasing_by exact Nat.mod_lt _ (Nat.pos_of_ne_zero hr)

theorem euclidExact_gcd :
    ∀ (n : ℕ) (old_r r : ℕ) (t0 t1 : ℤ), r = n →
      (euclidExact old_r r t0 t1).1 = Nat.gcd r old_r := by
  intro n
  induction n using Nat.strong_induction_on with
  | _ n ih =>
    intro old_r r t0 t1 hn
    subst hn
    rw [euclidExact]
    by_cases hr : r = 0
    · simp [hr]
    · simp only [hr, dite_false]
      by_cases hr2 : old_r % r = 0
      · simp only [hr2, if_true]
        rw [Nat.gcd_rec, hr2, Nat.gcd_zero_left]
      · simp only [hr2, if_false]
        rw [ih (old_r % r) (Nat.mod_lt _ (Nat.pos_of_ne_zero hr)) r
          (old_r % r) t1 _ rfl]
        rw [Nat.gcd_rec r old_r]

theorem euclidExact_bezout (nn aa : ℕ) :
    ∀ (n : ℕ) (old_r r : ℕ) (t0 t1 s0 s1 : ℤ), r = n →
      s0 * nn + t0 * aa = old_r →
      s1 * nn + t1 * aa = r →
      (t0 * s1 - t1 * s0 = 1 ∨ t0 * s1 - t1 * s0 = -1) →
      ∃ S0 S1 : ℤ,
        S0 * nn + (euclidExact old_r r t0 t1).2.1 * aa =
          ((euclidExact old_r r t0 t1).1 : ℤ) ∧
        S1 * nn + (euclidExact old_r r t0 t1).2.2 * aa = 0 ∧
        ((euclidExact old_r r t0 t1).2.1 * S1 -
           (euclidExact old_r r t0 t1).2.2 * S0 = 1 ∨
         (euclidExact old_r r t0 t1).2.1 * S1 -
           (euclidExact old_r r t0 t1).2.2 * S0 = -1) := by
  intro n
  induction n using Nat.strong_induction_on with
  | _ n ih =>
    intro old_r r t0 t1 s0 s1 hn h0 h1 hdet
    subst hn
    rw [euclidExact]
    by_cases hr : r = 0
    · rw [dif_pos hr]
      subst hr
      exact ⟨s0, s1, h0, by simpa using h1, hdet⟩
    · rw [dif_neg hr]
      have hN := Nat.mod_add_div old_r r
      have hZ : ((old_r % r : ℕ) : ℤ) + (r : ℤ) * ((old_r / r : ℕ) : ℤ) =
          (old_r : ℤ) := by
        exact_mod_cast hN
      have hmod : ((old_r % r : ℕ) : ℤ) =
          (old_r : ℤ) - ((old_r / r : ℕ) : ℤ) * (r : ℤ) := by
        linarith
      have h2 : (s0 - (old_r / r : ℕ) * s1) * nn +
          (t0 - (old_r / r : ℕ) * t1) * aa = ((old_r % r : ℕ) : ℤ) := by
        rw [hmod, ← h0, ← h1]
        ring
      have hdet2 : t1 * (s0 - (old_r / r : ℕ) * s1) -
          (t0 - (old_r / r : ℕ) * t1) * s1 = -(t0 * s1 - t1 * s0) := by
        ring
      by_cases hr2 : old_r % r = 0
      · simp only [hr2, if_true, Nat.cast_zero]
        refine ⟨s1, s0 - (old_r / r : ℕ) * s1, h1, ?_, ?_⟩
        · rw [h2, hr2]
          simp
        · rw [hdet2]
          rcases hdet with h | h <;> rw [h]
          · right; rfl
          · left; rfl
      · simp only [hr2, if_false]
        refine ih (old_r % r) (Nat.mod_lt _ (Nat.pos_of_ne_zero hr)) r
          (old_r % r) t1 (t0 - (old_r / r : ℕ) * t1) s1
          (s0 - (old_r / r : ℕ) * s1) rfl h1 h2 ?_
        rw [hdet2]
        rcases hdet with h | h <;> rw [h]
        · right; rfl
        · left; rfl

theorem euclidLoop_eq_exact {w : ℕ} :
    ∀ (n : ℕ) (old_r r : M w) (T0 T1 : ℤ), r.val = n →
      euclidLoop old_r r (T0 : M w) (T1 : M w) =
        (((euclidExact old_r.val r.val T0 T1).1 : M w),
         ((euclidExact old_r.val r.val T0 T1).2.1 : M w),
         ((euclidExact old_r.val r.val T0 T1).2.2 : M w)) := by
  intro n
  induction n using Nat.strong_induction_on with
  | _ n ih =>
    intro old_r r T0 T1 hn
    subst hn
    rw [euclidLoop, euclidExact]
    by_cases hr : r = 0
    · rw [dif_pos hr, dif_pos (by rw [hr, ZMod.val_zero])]
      rw [ZMod.natCast_zmod_val]
    · have hrv : r.val ≠ 0 := fun hv => hr ((ZMod.val_eq_zero r).mp hv)
      rw [dif_neg hr, dif_neg hrv]
      have hq : mdiv old_r r = (((old_r.val / r.val : ℕ) : ℤ) : M w) := by
        unfold mdiv
        rw [Int.cast_natCast]
      have hrv2 : (old_r - mdiv old_r r * r).val = old_r.val % r.val :=
        sub_mdiv_mul_val_mod old_r r
      have ht2 : (T0 : M w) - mdiv old_r r * (T1 : M w) =
          ((T0 - (old_r.val / r.val : ℕ) * T1 : ℤ) : M w) := by
        rw [hq]
        push_cast
        ring
      by_cases hz : old_r.val % r.val = 0
      · have hz2 : old_r - mdiv old_r r * r = 0 := by
          rw [← ZMod.val_eq_zero, hrv2]
          exact hz
        rw [if_pos hz2, if_pos hz]
        refine Prod.ext ?_ (Prod.ext ?_ ?_)
        · exact (ZMod.natCast_zmod_val r).symm
        · rfl
        · exact ht2
      · have hz2 : ¬ (old_r - mdiv old_r r * r = 0) := by
          rw [← ZMod.val_eq_zero, hrv2]
          exact hz
        rw [if_neg hz2, if_neg hz]
        rw [ht2]
        have hrec := ih (old_r.val % r.val)
          (Nat.mod_lt _ (Nat.pos_of_ne_zero hrv)) r
          (old_r - mdiv old_r r * r) T1
          (T0 - (old_r.val / r.val : ℕ) * T1) hrv2
        rw [hrec, hrv2]

theorem first_quotient (n A : ℕ) (hA : 0 < A) (hAn : A < n) :
    (n - A) / A + 1 = n / A := by
  have h1 : 1 ≤ n / A := (Nat.one_le_div_iff hA).mpr (le_of_lt hAn)
  have h2 : n - A = n - A * 1 := by omega
  have key : (n - A) / A = n / A - 1 :=
    h2 ▸ Nat.sub_mul_div n A 1 (by omega)
  omega

/-- Everything the Euclid run establishes about `solve_scalar_congruence` for
`a ≠ 0`: the computed gcd is `gcd(a.val, 2^w)`, the two Bezout rows, the
unimodularity of the final coefficient pair, and the shape of the result. -/
theorem solveScalar_core {w : ℕ} (a b : M w) (ha : a ≠ 0) :
    ∃ (G : ℕ) (T0 T1 S0 S1 : ℤ),
      G = Nat.gcd a.val (2 ^ w) ∧
      S0 * (2 ^ w : ℕ) + T0 * a.val = G ∧
      S1 * (2 ^ w : ℕ) + T1 * a.val = 0 ∧
      (T0 * S1 - T1 * S0 = 1 ∨ T0 * S1 - T1 * S0 = -1) ∧
      solveScalarCongruence a b =
        (if a * (mdiv b (G : M w) * (T0 : M w)) ≠ b then none
         else some (mdiv b (G : M w) * (T0 : M w), (T1 : M w))) := by
  set n : ℕ := 2 ^ w with hn
  set A : ℕ := a.val with hA
  have hApos : 0 < A := Nat.pos_of_ne_zero fun hv => ha ((ZMod.val_eq_zero a).mp hv)
  have hAn : A < n := ZMod.val_lt a
  have hnpos : 0 < n := Nat.pos_of_ne_zero (NeZero.ne _)
  -- the hand-rolled first quotient equals n / A
  have hq : mdiv (0 - a) a + 1 = ((n / A : ℕ) : M w) := by
    have hneg : (0 - a).val = n - A := by
      rw [zero_sub, ZMod.neg_val, if_neg ha]
    unfold mdiv
    rw [hneg, ← hA]
    rw [← Nat.cast_one (R := M w), ← Nat.cast_add, first_quotient n A hApos hAn]
  -- the first remainder is `n % A`
  have hr1 : (0 : M w) - (((n / A : ℕ) : M w)) * a = ((n % A : ℕ) : M w) := by
    have hmul : (((n / A : ℕ) : M w)) * a = ((n / A * A : ℕ) : M w) := by
      rw [Nat.cast_mul, ZMod.natCast_zmod_val]
    have hsub : n % A = n - n / A * A := by
      have := Nat.div_add_mod' n A
      omega
    rw [hmul, hsub, Nat.cast_sub (Nat.div_mul_le_self n A)]
    rw [hn, ZMod.natCast_self]
  have hr1val : (((n % A : ℕ) : M w)).val = n % A :=
    ZMod.val_cast_of_lt (lt_trans (Nat.mod_lt n hApos) hAn)
  -- the first Bezout coefficient pair
  have ht1 : (0 : M w) - (((n / A : ℕ) : M w)) * 1 = ((-(n / A : ℕ) : ℤ) : M w) := by
    rw [Int.cast_neg, Int.cast_natCast]
    ring
  have h1W : (1 : M w) = ((1 : ℤ) : M w) := Int.cast_one.symm
  -- run the loop
  set E := euclidExact A (n % A) 1 (-(n / A : ℕ)) with hE
  have hrun : euclidFuel a.val a (((n % A : ℕ) : M w)) 1 ((-(n / A : ℕ) : ℤ) : M w) =
      ((E.1 : M w), (E.2.1 : M w), (E.2.2 : M w)) := by
    rw [h1W]
    rw [euclidFuel_eq_loop a.val a _ _ _
      (by rw [hr1val]; exact Nat.mod_lt n hApos)]
    rw [euclidLoop_eq_exact (((n % A : ℕ) : M w)).val a _ 1 _ rfl]
    rw [hr1val, ← hA, ← hE]
  -- gcd
  have hgcd : E.1 = Nat.gcd A n := by
    rw [hE, euclidExact_gcd (n % A) A (n % A) _ _ rfl, Nat.gcd_rec A n]
  -- Bezout invariants
  have hbez := euclidExact_bezout n A (n % A) A (n % A) 1 (-(n / A : ℕ)) 0 1 rfl
    (by ring)
    (by
      have hdm : ((n / A : ℕ) : ℤ) * (A : ℤ) + ((n % A : ℕ) : ℤ) = (n : ℤ) := by
        exact_mod_cast Nat.div_add_mod' n A
      linarith)
    (by left; ring)
  rw [← hE] at hbez
  obtain ⟨S0, S1, hb0, hb1, hdet⟩ := hbez
  refine ⟨E.1, E.2.1, E.2.2, S0, S1, by rw [hgcd, Nat.gcd_comm], hb0, hb1, hdet, ?_⟩
  -- unfold the function
  unfold solveScalarCongruence
  rw [if_neg ha]
  rw [hq]
  dsimp only
  rw [hr1, ht1, hrun]

/-- C2: full specification of `solve_scalar_congruence`: a `some (x, k)`
result satisfies `a·x = b` and `a·(x + t·k) = b` for every `t`; a `none`
result means that no `x` at all solves `a·x = b`; and for `a = 0` the
result is `some (0, 1)` if `b = 0` and `none` otherwise. -/
theorem solveScalarCongruence_spec {w : ℕ} (a b : M w) :
    (∀ x k : M w, solveScalarCongruence a b = some (x, k) →
      a * x = b ∧ ∀ t : M w, a * (x + t * k) = b) ∧
    (solveScalarCongruence a b = none → ∀ x : M w, a * x ≠ b) ∧
    (a = 0 → solveScalarCongruence a b =
      if b = 0 then some (0, 1) else none) := by
  by_cases ha : a = 0
  · subst ha
    have hshape : solveScalarCongruence (0 : M w) b =
        if b = 0 then some (0, 1) else none := by
      unfold solveScalarCongruence
      rw [if_pos rfl]
    refine ⟨?_, ?_, fun _ => hshape⟩
    · intro x k hs
      rw [hshape] at hs
      by_cases hb : b = 0
      · rw [if_pos hb] at hs
        obtain ⟨hx, hk⟩ := Prod.mk.injEq 0 1 x k ▸ Option.some.inj hs
        subst hx
        constructor
        · rw [hb, zero_mul]
        · intro t; rw [hb, zero_mul]
      · rw [if_neg hb] at hs
        exact absurd hs (by simp)
    · intro hnone x
      rw [hshape] at hnone
      by_cases hb : b = 0
      · rw [if_pos hb] at hnone; exact absurd hnone (by simp)
      · rw [zero_mul]; exact fun h => hb h.symm
  · obtain ⟨G, T0, T1, S0, S1, hG, hb0, hb1, hdet, hfun⟩ := solveScalar_core a b ha
    have hApos : 0 < a.val :=
      Nat.pos_of_ne_zero fun hv => ha ((ZMod.val_eq_zero a).mp hv)
    have hGdvdA : G ∣ a.val := hG ▸ Nat.gcd_dvd_left _ _
    have hGdvdn : G ∣ 2 ^ w := hG ▸ Nat.gcd_dvd_right _ _
    have hGpos : 0 < G := hG ▸ Nat.gcd_pos_of_pos_left _ hApos
    have hGlt : G < 2 ^ w :=
      lt_of_le_of_lt (Nat.le_of_dvd hApos hGdvdA) (ZMod.val_lt a)
    have hGval : ((G : ℕ) : M w).val = G := ZMod.val_cast_of_lt hGlt
    have haZ : ((a.val : ℤ) : M w) = a := by
      rw [Int.cast_natCast, ZMod.natCast_zmod_val]
    have hnZ : (((2 ^ w : ℕ) : ℤ) : M w) = 0 := by
      rw [Int.cast_natCast, ZMod.natCast_self]
    have haT0 : a * ((T0 : ℤ) : M w) = ((G : ℕ) : M w) := by
      have h1 : (a.val : ℤ) * T0 = (G : ℤ) - S0 * ((2 ^ w : ℕ) : ℤ) := by
        linarith
      calc a * ((T0 : ℤ) : M w) = (((a.val : ℤ) * T0 : ℤ) : M w) := by
            rw [Int.cast_mul, haZ]
        _ = ((G : ℕ) : M w) := by
            rw [h1, Int.cast_sub, Int.cast_mul, hnZ, Int.cast_natCast]
            ring
    have hkT1 : a * ((T1 : ℤ) : M w) = 0 := by
      have h1 : (a.val : ℤ) * T1 = - S1 * ((2 ^ w : ℕ) : ℤ) := by linarith
      calc a * ((T1 : ℤ) : M w) = (((a.val : ℤ) * T1 : ℤ) : M w) := by
            rw [Int.cast_mul, haZ]
        _ = 0 := by
            rw [h1, Int.cast_mul, hnZ, mul_zero]
    refine ⟨?_, ?_, fun h0 => absurd h0 ha⟩
    · intro x k hs
      rw [hfun] at hs
      by_cases hcond : a * (mdiv b ((G : ℕ) : M w) * ((T0 : ℤ) : M w)) ≠ b
      · rw [if_pos hcond] at hs
        exact absurd hs (by simp)
      · rw [if_neg hcond] at hs
        obtain ⟨hx, hk⟩ := Prod.mk.injEq _ _ x k ▸ Option.some.inj hs
        subst hx
        subst hk
        have hax : a * (mdiv b ((G : ℕ) : M w) * ((T0 : ℤ) : M w)) = b :=
          not_not.mp hcond
        refine ⟨hax, fun t => ?_⟩
        calc a * (mdiv b ((G : ℕ) : M w) * ((T0 : ℤ) : M w) + t * ((T1 : ℤ) : M w))
            = a * (mdiv b ((G : ℕ) : M w) * ((T0 : ℤ) : M w)) +
              t * (a * ((T1 : ℤ) : M w)) := by ring
          _ = b := by rw [hax, hkT1, mul_zero, add_zero]
    · intro hnone x hax
      rw [hfun] at hnone
      by_cases hcond : a * (mdiv b ((G : ℕ) : M w) * ((T0 : ℤ) : M w)) ≠ b
      · -- the rejected candidate would in fact be a solution
        apply hcond
        have hGb : G ∣ b.val := by
          rw [← hax, ZMod.val_mul]
          exact (Nat.dvd_mod_iff hGdvdn).mpr (Dvd.dvd.mul_right hGdvdA x.val)
        have hmd : mdiv b ((G : ℕ) : M w) = ((b.val / G : ℕ) : M w) := by
          unfold mdiv
          rw [hGval]
        calc a * (mdiv b ((G : ℕ) : M w) * ((T0 : ℤ) : M w))
            = mdiv b ((G : ℕ) : M w) * (a * ((T0 : ℤ) : M w)) := by ring
          _ = ((b.val / G : ℕ) : M w) * ((G : ℕ) : M w) := by rw [hmd, haT0]
          _ = ((b.val / G * G : ℕ) : M w) := by rw [Nat.cast_mul]
          _ = ((b.val : ℕ) : M w) := by rw [Nat.div_mul_cancel hGb]
          _ = b := ZMod.natCast_zmod_val b
      · rw [if_neg hcond] at hnone
        exact absurd hnone (by simp)

/-- Witness for `solveScalarCongruence_spec`: at width 8, `6·x = 4` is solved
by `x = 86` with kernel generator `128`. -/
theorem solveScalarCongruence_spec_witness :
    solveScalarCongruence (6 : M 8) (4 : M 8) = some (86, 128) ∧
    ((6 : M 8) * 86 = 4 ∧ ∀ t : M 8, (6 : M 8) * (86 + t * 128) = 4) :=
  ⟨by decide, (solveScalarCongruence_spec (6 : M 8) 4).1 86 128 (by decide)⟩

/-! ## Matrices and the diagonalizer (`matrix.rs`, `congruence_solver.rs`)

`Matrix<T>` is a row-major `rows × cols` array; we model it as a Mathlib
matrix over `ℤ/2^w`.  `diagonalize` mutates `A` in place and accumulates the
row operations in `S` and the column operations in `T`; we thread the triple
`(A, S, T)` as an explicit state. -/

abbrev Mat (w m c : ℕ) := Matrix (Fin m) (Fin c) (M w)

/-- `Matrix::swap_rows(i, j)`. -/
def swapRows {w m c : ℕ} (i j : Fin m) (A : Mat w m c) : Mat w m c :=
  fun r k => A (Equiv.swap i j r) k

/-- `Matrix::swap_columns(i, j)`. -/
def swapCols {w m c : ℕ} (i j : Fin c) (A : Mat w m c) : Mat w m c :=
  fun r k => A r (Equiv.swap i j k)

/-- `Matrix::row_multiply_add(src, dst, f)`: `row_dst += f · row_src`. -/
def rowMulAdd {w m c : ℕ} (src dst : Fin m) (f : M w) (A : Mat w m c) :
    Mat w m c :=
  fun r k => if r = dst then A dst k + A src k * f else A r k

/-- `Matrix::col_multiply_add(src, dst, f)`: `col_dst += f · col_src`. -/
def colMulAdd {w m c : ℕ} (src dst : Fin c) (f : M w) (A : Mat w m c) :
    Mat w m c :=
  fun r k => if k = dst then A r dst + A r src * f else A r k

/-- One comparison step of Rust `Iterator::min_by_key`: keep the running
best, replacing it only on a STRICTLY smaller key (so the first minimum
wins, Rust's documented tie-breaking). -/
def fmStep {w n : ℕ} (f : Fin n → M w) (acc : Option (Fin n)) (j : Fin n) :
    Option (Fin n) :=
  match acc with
  | none => some j
  | some b => if (f j).val < (f b).val then some j else some b

/-- Rust `Iterator::min_by_key` over the values of `f`. -/
def firstMin {w n : ℕ} (l : List (Fin n)) (f : Fin n → M w) : Option (Fin n) :=
  l.foldl (fmStep f) none

/-- The state threaded through `diagonalize`: the matrix being reduced and
the accumulated row/column operations. -/
structure DiagState (w m c : ℕ) where
  A : Mat w m c
  S : Mat w m m
  T : Mat w c c

/-- A row swap applied to both `A` and `S`. -/
def stSwapRows {w m c : ℕ} (i j : Fin m) (st : DiagState w m c) :
    DiagState w m c :=
  ⟨swapRows i j st.A, swapRows i j st.S, st.T⟩

/-- A row multiply-add applied to both `A` and `S`. -/
def stRowMulAdd {w m c : ℕ} (src dst : Fin m) (f : M w)
    (st : DiagState w m c) : DiagState w m c :=
  ⟨rowMulAdd src dst f st.A, rowMulAdd src dst f st.S, st.T⟩

/-- A column swap applied to both `A` and `T`. -/
def stSwapCols {w m c : ℕ} (i j : Fin c) (st : DiagState w m c) :
    DiagState w m c :=
  ⟨swapCols i j st.A, st.S, swapCols i j st.T⟩

/-- A column multiply-add applied to both `A` and `T`. -/
def stColMulAdd {w m c : ℕ} (src dst : Fin c) (f : M w)
    (st : DiagState w m c) : DiagState w m c :=
  ⟨colMulAdd src dst f st.A, st.S, colMulAdd src dst f st.T⟩

/-- Is there a non-zero entry in column `i` strictly below row `i`?
(`a.col(i).skip(i+1).all(|e| *e == 0)`, negated.) -/
def colNonzeroBelow {w m c : ℕ} (A : Mat w m c) (i : ℕ) (hic : i < c) : Prop :=
  ∃ k : Fin m, i < k.val ∧ A k ⟨i, hic⟩ ≠ 0

instance {w m c : ℕ} (A : Mat w m c) (i : ℕ) (hic : i < c) :
    Decidable (colNonzeroBelow A i hic) :=
  inferInstanceAs (Decidable (∃ k : Fin m, i < k.val ∧ A k ⟨i, hic⟩ ≠ 0))

/-- Is there a non-zero entry in row `i` strictly right of column `i`? -/
def rowNonzeroRight {w m c : ℕ} (A : Mat w m c) (i : ℕ) (him : i < m) : Prop :=
  ∃ k : Fin c, i < k.val ∧ A ⟨i, him⟩ k ≠ 0

instance {w m c : ℕ} (A : Mat w m c) (i : ℕ) (him : i < m) :
    Decidable (rowNonzeroRight A i him) :=
  inferInstanceAs (Decidable (∃ k : Fin c, i < k.val ∧ A ⟨i, him⟩ k ≠ 0))

/-- Pivot search in column `i`: the first row `≥ i` holding a non-zero entry
of minimal value (`min_by_key` over the filtered column iterator). -/
def colPivot {w m c : ℕ} (A : Mat w m c) (i : ℕ) (hic : i < c) :
    Option (Fin m) :=
  firstMin (((List.finRange m).drop i).filter fun r => A r ⟨i, hic⟩ ≠ 0)
    (fun r => A r ⟨i, hic⟩)

/-- Pivot search in row `i`. -/
def rowPivot {w m c : ℕ} (A : Mat w m c) (i : ℕ) (him : i < m) :
    Option (Fin c) :=
  firstMin (((List.finRange c).drop i).filter fun k => A ⟨i, him⟩ k ≠ 0)
    (fun k => A ⟨i, him⟩ k)

/-- The elimination of one entry below the pivot: if `A[k,i] ≠ 0`, subtract
`(A[k,i] / A[i,i]) ·` row `i` from row `k` (in `A` and `S`). -/
def colStep {w m c : ℕ} (i : ℕ) (him : i < m) (hic : i < c)
    (s : DiagState w m c) (k : Fin m) : DiagState w m c :=
  if s.A k ⟨i, hic⟩ ≠ 0 then
    stRowMulAdd ⟨i, him⟩ k
      (0 - mdiv (s.A k ⟨i, hic⟩) (s.A ⟨i, him⟩ ⟨i, hic⟩)) s
  else s

/-- The elimination of one entry right of the pivot, the column dual. -/
def rowStep {w m c : ℕ} (i : ℕ) (him : i < m) (hic : i < c)
    (s : DiagState w m c) (k : Fin c) : DiagState w m c :=
  if s.A ⟨i, him⟩ k ≠ 0 then
    stColMulAdd ⟨i, hic⟩ k
      (0 - mdiv (s.A ⟨i, him⟩ k) (s.A ⟨i, him⟩ ⟨i, hic⟩)) s
  else s

/-- One column-elimination pass: swap the pivot row up to row `i`, then for
every row `k > i` with `A[k,i] ≠ 0` subtract `(A[k,i] / A[i,i]) ·` row `i`. -/
def colPass {w m c : ℕ} (i : ℕ) (him : i < m) (hic : i < c)
    (st : DiagState w m c) : DiagState w m c :=
  match colPivot st.A i hic with
  | none => st
  | some p =>
    ((List.finRange m).filter fun k => i < k.val).foldl
      (colStep i him hic) (stSwapRows ⟨i, him⟩ p st)

/-- One row-elimination pass, the column-operation dual of `colPass`. -/
def rowPass {w m c : ℕ} (i : ℕ) (him : i < m) (hic : i < c)
    (st : DiagState w m c) : DiagState w m c :=
  match rowPivot st.A i him with
  | none => st
  | some p =>
    ((List.finRange c).filter fun k => i < k.val).foldl
      (rowStep i him hic) (stSwapCols ⟨i, hic⟩ p st)

/-- The inner `loop` of `diagonalize` at pivot index `i`: keep eliminating
the column (preferred) or the row until both are zero beyond the pivot.
`fuel` bounds the number of iterations; `none` means fuel ran out (the Rust
loop would still be running). -/
def innerLoop {w m c : ℕ} : ℕ → (i : ℕ) → i < m → i < c →
    DiagState w m c → Option (DiagState w m c)
  | 0, _, _, _, _ => none
  | fuel + 1, i, him, hic, st =>
    if colNonzeroBelow st.A i hic then
      innerLoop fuel i him hic (colPass i him hic st)
    else if rowNonzeroRight st.A i him then
      innerLoop fuel i him hic (rowPass i him hic st)
    else
      some st

/-- The outer `for i in 0..min_dim` loop of `diagonalize`, starting at `d`;
`steps` is the (sufficient) structural recursion budget. -/
def outerFrom {w m c : ℕ} (fuel : ℕ) : ℕ → ℕ → DiagState w m c →
    Option (DiagState w m c)
  | 0, _, st => some st
  | steps + 1, d, st =>
    if h : d < min m c then
      (innerLoop fuel d (lt_of_lt_of_le h (min_le_left m c))
          (lt_of_lt_of_le h (min_le_right m c)) st).bind
        (outerFrom fuel steps (d + 1))
    else some st

/-- `diagonalize(&mut A)`: reduce `A` to a diagonal matrix `D` in place,
returning `(S, T)` with `D = S·A·T`.  Here the result is `(D, S, T)` and
`none` signals that `fuel` iterations of some inner loop did not suffice. -/
def diagonalize {w m c : ℕ} (fuel : ℕ) (A : Mat w m c) :
    Option (Mat w m c × Mat w m m × Mat w c c) :=
  (outerFrom fuel (min m c) 0 ⟨A, 1, 1⟩).map fun st => (st.A, st.S, st.T)

/-- The invariant of `diagonalize`: the current matrix equals the
accumulated row operations times the original matrix times the accumulated
column operations. -/
def Inv {w m c : ℕ} (A0 : Mat w m c) (st : DiagState w m c) : Prop :=
  st.A = st.S * A0 * st.T

/-- Both accumulated operation matrices are invertible. -/
def UnitsInv {w m c : ℕ} (st : DiagState w m c) : Prop :=
  IsUnit st.S ∧ IsUnit st.T

/-- All off-diagonal entries in the first `i` rows and columns are zero. -/
def ZoneInv {w m c : ℕ} (i : ℕ) (A : Mat w m c) : Prop :=
  ∀ (r : Fin m) (k : Fin c), r.val ≠ k.val → (r.val < i ∨ k.val < i) →
    A r k = 0

theorem swapRows_mul {w m c d : ℕ} (i j : Fin m) (X : Mat w m c)
    (Y : Matrix (Fin c) (Fin d) (M w)) :
    (swapRows i j X) * Y = swapRows i j (X * Y) := by
  ext r k
  simp [Matrix.mul_apply, swapRows]

theorem rowMulAdd_mul {w m c d : ℕ} (src dst : Fin m) (f : M w)
    (X : Mat w m c) (Y : Matrix (Fin c) (Fin d) (M w)) :
    (rowMulAdd src dst f X) * Y = rowMulAdd src dst f (X * Y) := by
  ext r k
  simp only [Matrix.mul_apply, rowMulAdd]
  by_cases h : r = dst
  · simp only [h, if_pos]
    have hterm : ∀ x : Fin c, (X dst x + X src x * f) * Y x k
        = X dst x * Y x k + (X src x * Y x k) * f := fun x => by ring
    rw [Finset.sum_congr rfl fun x _ => hterm x, Finset.sum_add_distrib,
      Finset.sum_mul]
  · simp [h]

theorem mul_swapCols {w m c d : ℕ} (i j : Fin c) (X : Matrix (Fin d) (Fin m) (M w))
    (Y : Matrix (Fin m) (Fin c) (M w)) :
    X * (swapCols i j Y) = swapCols i j (X * Y) := by
  ext r k
  simp [Matrix.mul_apply, swapCols]

theorem mul_colMulAdd {w m c d : ℕ} (src dst : Fin c) (f : M w)
    (X : Matrix (Fin d) (Fin m) (M w)) (Y : Matrix (Fin m) (Fin c) (M w)) :
    X * (colMulAdd src dst f Y) = colMulAdd src dst f (X * Y) := by
  ext r k
  simp only [Matrix.mul_apply, colMulAdd]
  by_cases h : k = dst
  · simp only [h, if_pos]
    have hterm : ∀ x : Fin m, X r x * (Y x dst + Y x src * f)
        = X r x * Y x dst + (X r x * Y x src) * f := fun x => by ring
    rw [Finset.sum_congr rfl fun x _ => hterm x, Finset.sum_add_distrib,
      Finset.sum_mul]
  · simp [h]

theorem swapRows_swapRows {w m c : ℕ} (i j : Fin m) (A : Mat w m c) :
    swapRows i j (swapRows i j A) = A := by
  ext r k
  simp [swapRows, Equiv.swap_apply_self]

theorem swapCols_swapCols {w m c : ℕ} (i j : Fin c) (A : Mat w m c) :
    swapCols i j (swapCols i j A) = A := by
  ext r k
  simp [swapCols, Equiv.swap_apply_self]

theorem rowMulAdd_rowMulAdd {w m c : ℕ} (src dst : Fin m) (f g : M w)
    (h : src ≠ dst) (A : Mat w m c) :
    rowMulAdd src dst f (rowMulAdd src dst g A) =
      rowMulAdd src dst (g + f) A := by
  ext r k
  simp only [rowMulAdd]
  split_ifs <;> first | rfl | ring | simp_all

theorem colMulAdd_colMulAdd {w m c : ℕ} (src dst : Fin c) (f g : M w)
    (h : src ≠ dst) (A : Mat w m c) :
    colMulAdd src dst f (colMulAdd src dst g A) =
      colMulAdd src dst (g + f) A := by
  ext r k
  simp only [colMulAdd]
  split_ifs <;> first | rfl | ring | simp_all

theorem rowMulAdd_zero {w m c : ℕ} (src dst : Fin m) (A : Mat w m c) :
    rowMulAdd src dst 0 A = A := by
  ext r k
  simp only [rowMulAdd, mul_zero, add_zero]
  by_cases hr : r = dst
  · subst hr; rw [if_pos rfl]
  · rw [if_neg hr]

theorem colMulAdd_zero {w m c : ℕ} (src dst : Fin c) (A : Mat w m c) :
    colMulAdd src dst 0 A = A := by
  ext r k
  simp only [colMulAdd, mul_zero, add_zero]
  by_cases hk : k = dst
  · subst hk; rw [if_pos rfl]
  · rw [if_neg hk]

theorem isUnit_swapRows {w m : ℕ} (i j : Fin m) {S : Mat w m m}
    (hS : IsUnit S) : IsUnit (swapRows i j S) := by
  have hfac : swapRows i j S = (swapRows i j (1 : Mat w m m)) * S := by
    rw [swapRows_mul, Matrix.one_mul]
  have hE : (swapRows i j (1 : Mat w m m)) * (swapRows i j (1 : Mat w m m))
      = 1 := by
    rw [swapRows_mul, Matrix.one_mul, swapRows_swapRows]
  have hu : IsUnit (swapRows i j (1 : Mat w m m)) := ⟨⟨_, _, hE, hE⟩, rfl⟩
  rw [hfac]
  exact hu.mul hS

theorem isUnit_rowMulAdd {w m : ℕ} (src dst : Fin m) (f : M w)
    (h : src ≠ dst) {S : Mat w m m} (hS : IsUnit S) :
    IsUnit (rowMulAdd src dst f S) := by
  have hfac : rowMulAdd src dst f S
      = (rowMulAdd src dst f (1 : Mat w m m)) * S := by
    rw [rowMulAdd_mul, Matrix.one_mul]
  have hE1 : (rowMulAdd src dst f (1 : Mat w m m)) *
      (rowMulAdd src dst (0 - f) (1 : Mat w m m)) = 1 := by
    rw [rowMulAdd_mul, Matrix.one_mul, rowMulAdd_rowMulAdd src dst _ _ h]
    rw [show 0 - f + f = 0 by ring, rowMulAdd_zero]
  have hE2 : (rowMulAdd src dst (0 - f) (1 : Mat w m m)) *
      (rowMulAdd src dst f (1 : Mat w m m)) = 1 := by
    rw [rowMulAdd_mul, Matrix.one_mul, rowMulAdd_rowMulAdd src dst _ _ h]
    rw [show f + (0 - f) = 0 by ring, rowMulAdd_zero]
  have hu : IsUnit (rowMulAdd src dst f (1 : Mat w m m)) :=
    ⟨⟨_, _, hE1, hE2⟩, rfl⟩
  rw [hfac]
  exact hu.mul hS

theorem isUnit_swapCols {w m : ℕ} (i j : Fin m) {T : Mat w m m}
    (hT : IsUnit T) : IsUnit (swapCols i j T) := by
  have hfac : swapCols i j T = T * (swapCols i j (1 : Mat w m m)) := by
    rw [mul_swapCols, Matrix.mul_one]
  have hE : (swapCols i j (1 : Mat w m m)) * (swapCols i j (1 : Mat w m m))
      = 1 := by
    rw [mul_swapCols, Matrix.mul_one, swapCols_swapCols]
  have hu : IsUnit (swapCols i j (1 : Mat w m m)) := ⟨⟨_, _, hE, hE⟩, rfl⟩
  rw [hfac]
  exact hT.mul hu

theorem isUnit_colMulAdd {w m : ℕ} (src dst : Fin m) (f : M w)
    (h : src ≠ dst) {T : Mat w m m} (hT : IsUnit T) :
    IsUnit (colMulAdd src dst f T) := by
  have hfac : colMulAdd src dst f T
      = T * (colMulAdd src dst f (1 : Mat w m m)) := by
    rw [mul_colMulAdd, Matrix.mul_one]
  have hE1 : (colMulAdd src dst f (1 : Mat w m m)) *
      (colMulAdd src dst (0 - f) (1 : Mat w m m)) = 1 := by
    rw [mul_colMulAdd, Matrix.mul_one, colMulAdd_colMulAdd src dst _ _ h]
    rw [show f + (0 - f) = 0 by ring, colMulAdd_zero]
  have hE2 : (colMulAdd src dst (0 - f) (1 : Mat w m m)) *
      (colMulAdd src dst f (1 : Mat w m m)) = 1 := by
    rw [mul_colMulAdd, Matrix.mul_one, colMulAdd_colMulAdd src dst _ _ h]
    rw [show 0 - f + f = 0 by ring, colMulAdd_zero]
  have hu : IsUnit (colMulAdd src dst f (1 : Mat w m m)) :=
    ⟨⟨_, _, hE1, hE2⟩, rfl⟩
  rw [hfac]
  exact hT.mul hu

theorem inv_stSwapRows {w m c : ℕ} (A0 : Mat w m c) (i j : Fin m)
    (st : DiagState w m c) (h : Inv A0 st) : Inv A0 (stSwapRows i j st) := by
  show swapRows i j st.A = swapRows i j st.S * A0 * st.T
  rw [h, swapRows_mul, swapRows_mul]

theorem inv_stRowMulAdd {w m c : ℕ} (A0 : Mat w m c) (src dst : Fin m)
    (f : M w) (st : DiagState w m c) (h : Inv A0 st) :
    Inv A0 (stRowMulAdd src dst f st) := by
  show rowMulAdd src dst f st.A = rowMulAdd src dst f st.S * A0 * st.T
  rw [h, rowMulAdd_mul, rowMulAdd_mul]

theorem inv_stSwapCols {w m c : ℕ} (A0 : Mat w m c) (i j : Fin c)
    (st : DiagState w m c) (h : Inv A0 st) : Inv A0 (stSwapCols i j st) := by
  show swapCols i j st.A = st.S * A0 * swapCols i j st.T
  rw [h, mul_swapCols]

theorem inv_stColMulAdd {w m c : ℕ} (A0 : Mat w m c) (src dst : Fin c)
    (f : M w) (st : DiagState w m c) (h : Inv A0 st) :
    Inv A0 (stColMulAdd src dst f st) := by
  show colMulAdd src dst f st.A = st.S * A0 * colMulAdd src dst f st.T
  rw [h, mul_colMulAdd]

theorem foldl_preserve {α β : Type} (P : α → Prop) (f : α → β → α) :
    ∀ (l : List β) (s : α), (∀ s b, P s → P (f s b)) → P s →
      P (l.foldl f s)
  | [], s, _, hs => hs
  | b :: l, s, h, hs => foldl_preserve P f l (f s b) h (h s b hs)

theorem zone_swapRows {w m c : ℕ} {i : ℕ} {A : Mat w m c} (j1 j2 : Fin m)
    (h : ZoneInv i A) (h1 : i ≤ j1.val) (h2 : i ≤ j2.val) :
    ZoneInv i (swapRows j1 j2 A) := by
  intro r k hne hlt
  show A (Equiv.swap j1 j2 r) k = 0
  have hv : i ≤ r.val → i ≤ (Equiv.swap j1 j2 r).val := by
    intro hr
    rw [Equiv.swap_apply_def]
    split_ifs <;> assumption
  by_cases hr : r.val < i
  · have hrj : Equiv.swap j1 j2 r = r := by
      refine Equiv.swap_apply_of_ne_of_ne ?_ ?_ <;>
        exact fun hc => absurd (congrArg Fin.val hc) (by omega)
    rw [hrj]
    exact h r k hne hlt
  · have hk : k.val < i := by omega
    refine h _ k ?_ (Or.inr hk)
    have := hv (by omega)
    omega

theorem zone_rowMulAdd {w m c : ℕ} {i : ℕ} {A : Mat w m c} (src dst : Fin m)
    (f : M w) (h : ZoneInv i A) (hsrc : src.val = i) (hdst : i < dst.val) :
    ZoneInv i (rowMulAdd src dst f A) := by
  intro r k hne hlt
  show (if r = dst then A dst k + A src k * f else A r k) = 0
  by_cases hr : r = dst
  · have hk : k.val < i := by
      have : i < r.val := hr ▸ hdst
      omega
    rw [if_pos hr, h dst k (by omega) (Or.inr hk),
      h src k (by omega) (Or.inr hk)]
    ring
  · rw [if_neg hr]
    exact h r k hne hlt

theorem zone_swapCols {w m c : ℕ} {i : ℕ} {A : Mat w m c} (j1 j2 : Fin c)
    (h : ZoneInv i A) (h1 : i ≤ j1.val) (h2 : i ≤ j2.val) :
    ZoneInv i (swapCols j1 j2 A) := by
  intro r k hne hlt
  show A r (Equiv.swap j1 j2 k) = 0
  have hv : i ≤ k.val → i ≤ (Equiv.swap j1 j2 k).val := by
    intro hk
    rw [Equiv.swap_apply_def]
    split_ifs <;> assumption
  by_cases hk : k.val < i
  · have hkj : Equiv.swap j1 j2 k = k := by
      refine Equiv.swap_apply_of_ne_of_ne ?_ ?_ <;>
        exact fun hc => absurd (congrArg Fin.val hc) (by omega)
    rw [hkj]
    exact h r k hne hlt
  · have hr : r.val < i := by omega
    refine h r _ ?_ (Or.inl hr)
    have := hv (by omega)
    omega

theorem zone_colMulAdd {w m c : ℕ} {i : ℕ} {A : Mat w m c} (src dst : Fin c)
    (f : M w) (h : ZoneInv i A) (hsrc : src.val = i) (hdst : i < dst.val) :
    ZoneInv i (colMulAdd src dst f A) := by
  intro r k hne hlt
  show (if k = dst then A r dst + A r src * f else A r k) = 0
  by_cases hk : k = dst
  · have hr : r.val < i := by
      have : i < k.val := hk ▸ hdst
      omega
    rw [if_pos hk, h r dst (by omega) (Or.inl hr),
      h r src (by omega) (Or.inl hr)]
    ring
  · rw [if_neg hk]
    exact h r k hne hlt

theorem fmStep_none {w n : ℕ} (f : Fin n → M w) (j : Fin n) :
    fmStep f none j = some j := rfl

theorem fmStep_some {w n : ℕ} (f : Fin n → M w) (b j : Fin n) :
    fmStep f (some b) j =
      if (f j).val < (f b).val then some j else some b := rfl

theorem firstMin_mem {w n : ℕ} (f : Fin n → M w) :
    ∀ (l : List (Fin n)) (acc : Option (Fin n)) (b : Fin n),
      l.foldl (fmStep f) acc = some b → (acc = some b ∨ b ∈ l)
  | [], acc, b, h => Or.inl h
  | j :: l, acc, b, h => by
      rcases firstMin_mem f l _ b h with h1 | h1
      · cases acc with
        | none =>
            rw [fmStep_none] at h1
            exact Or.inr (by simp [Option.some.inj h1])
        | some a =>
            rw [fmStep_some] at h1
            by_cases hlt : (f j).val < (f a).val
            · rw [if_pos hlt] at h1
              exact Or.inr (by simp [Option.some.inj h1])
            · rw [if_neg hlt] at h1
              exact Or.inl h1
      · exact Or.inr (List.mem_cons_of_mem _ h1)

theorem firstMin_min_aux {w n : ℕ} (f : Fin n → M w) :
    ∀ (l : List (Fin n)) (a b : Fin n),
      l.foldl (fmStep f) (some a) = some b → (f b).val ≤ (f a).val
  | [], a, b, h => by rw [Option.some.inj h]
  | j :: l, a, b, h => by
      rw [List.foldl_cons, fmStep_some] at h
      by_cases hlt : (f j).val < (f a).val
      · rw [if_pos hlt] at h
        exact le_of_lt (lt_of_le_of_lt (firstMin_min_aux f l j b h) hlt)
      · rw [if_neg hlt] at h
        exact firstMin_min_aux f l a b h

theorem firstMin_le {w n : ℕ} (f : Fin n → M w) :
    ∀ (l : List (Fin n)) (acc : Option (Fin n)) (b : Fin n),
      l.foldl (fmStep f) acc = some b →
      ∀ x ∈ l, (f b).val ≤ (f x).val
  | [], _, _, _, x, hx => absurd hx (List.not_mem_nil x)
  | j :: l, acc, b, h, x, hx => by
      rw [List.foldl_cons] at h
      rcases List.mem_cons.mp hx with rfl | hx2
      · cases acc with
        | none =>
            rw [fmStep_none] at h
            exact firstMin_min_aux f l x b h
        | some a =>
            rw [fmStep_some] at h
            by_cases hlt : (f x).val < (f a).val
            · rw [if_pos hlt] at h
              exact firstMin_min_aux f l x b h
            · rw [if_neg hlt] at h
              exact le_trans (firstMin_min_aux f l a b h) (le_of_not_lt hlt)
      · exact firstMin_le f l _ b h x hx2

theorem colStep_fold_char {w m c : ℕ} (i : ℕ) (him : i < m) (hic : i < c) :
    ∀ (l : List (Fin m)), (∀ k ∈ l, i < k.val) → l.Nodup →
    ∀ (s0 : DiagState w m c),
      (∀ (r : Fin m) (j : Fin c), r ∉ l →
        (l.foldl (colStep i him hic) s0).A r j = s0.A r j) ∧
      (∀ k ∈ l, ∀ (j : Fin c),
        (l.foldl (colStep i him hic) s0).A k j =
          if s0.A k ⟨i, hic⟩ ≠ 0 then
            s0.A k j + s0.A ⟨i, him⟩ j *
              (0 - mdiv (s0.A k ⟨i, hic⟩) (s0.A ⟨i, him⟩ ⟨i, hic⟩))
          else s0.A k j)
  | [], _, _, s0 => ⟨fun r j _ => rfl, fun k hk => absurd hk (List.not_mem_nil k)⟩
  | k :: l, hgt, hnd, s0 => by
      have hkl : k ∉ l := (List.nodup_cons.mp hnd).1
      have hnd2 : l.Nodup := (List.nodup_cons.mp hnd).2
      have hgt2 : ∀ x ∈ l, i < x.val := fun x hx => hgt x (List.mem_cons_of_mem _ hx)
      have hkgt : i < k.val := hgt k (List.mem_cons_self k l)
      have hfik : (⟨i, him⟩ : Fin m) ≠ k := by
        intro hc
        have := congrArg Fin.val hc
        simp at this
        omega
      set s1 := colStep i him hic s0 k with hs1
      -- row-k formula and row preservation for the single step
      have hstep_other : ∀ (r : Fin m) (j : Fin c), r ≠ k → s1.A r j = s0.A r j := by
        intro r j hr
        rw [hs1]
        unfold colStep
        by_cases h0 : s0.A k ⟨i, hic⟩ ≠ 0
        · rw [if_pos h0]
          show (if r = k then _ else s0.A r j) = s0.A r j
          rw [if_neg hr]
        · rw [if_neg h0]
      have hstep_k : ∀ (j : Fin c), s1.A k j =
          if s0.A k ⟨i, hic⟩ ≠ 0 then
            s0.A k j + s0.A ⟨i, him⟩ j *
              (0 - mdiv (s0.A k ⟨i, hic⟩) (s0.A ⟨i, him⟩ ⟨i, hic⟩))
          else s0.A k j := by
        intro j
        rw [hs1]
        unfold colStep
        by_cases h0 : s0.A k ⟨i, hic⟩ ≠ 0
        · rw [if_pos h0, if_pos h0]
          show (if k = k then s0.A k j + _ else _) = _
          rw [if_pos rfl]
        · rw [if_neg h0, if_neg h0]
      obtain ⟨ihOther, ihMem⟩ := colStep_fold_char i him hic l hgt2 hnd2 s1
      rw [List.foldl_cons]
      refine ⟨?_, ?_⟩
      · intro r j hr
        have hr1 : r ∉ l := fun hc => hr (List.mem_cons_of_mem _ hc)
        have hrk : r ≠ k := fun hc => hr (hc ▸ List.mem_cons_self k l)
        rw [ihOther r j hr1, hstep_other r j hrk]
      · intro x hx j
        rcases List.mem_cons.mp hx with rfl | hx2
        · rw [ihOther x j hkl, hstep_k j]
        · have hxk : x ≠ k := fun hc => hkl (hc ▸ hx2)
          rw [ihMem x hx2 j]
          rw [hstep_other x _ hxk, hstep_other x _ hxk,
            hstep_other ⟨i, him⟩ j hfik, hstep_other ⟨i, him⟩ ⟨i, hic⟩ hfik]

theorem rowStep_fold_char {w m c : ℕ} (i : ℕ) (him : i < m) (hic : i < c) :
    ∀ (l : List (Fin c)), (∀ k ∈ l, i < k.val) → l.Nodup →
    ∀ (s0 : DiagState w m c),
      (∀ (r : Fin m) (j : Fin c), j ∉ l →
        (l.foldl (rowStep i him hic) s0).A r j = s0.A r j) ∧
      (∀ k ∈ l, ∀ (r : Fin m),
        (l.foldl (rowStep i him hic) s0).A r k =
          if s0.A ⟨i, him⟩ k ≠ 0 then
            s0.A r k + s0.A r ⟨i, hic⟩ *
              (0 - mdiv (s0.A ⟨i, him⟩ k) (s0.A ⟨i, him⟩ ⟨i, hic⟩))
          else s0.A r k)
  | [], _, _, s0 => ⟨fun r j _ => rfl, fun k hk => absurd hk (List.not_mem_nil k)⟩
  | k :: l, hgt, hnd, s0 => by
      have hkl : k ∉ l := (List.nodup_cons.mp hnd).1
      have hnd2 : l.Nodup := (List.nodup_cons.mp hnd).2
      have hgt2 : ∀ x ∈ l, i < x.val := fun x hx => hgt x (List.mem_cons_of_mem _ hx)
      have hkgt : i < k.val := hgt k (List.mem_cons_self k l)
      have hfik : (⟨i, hic⟩ : Fin c) ≠ k := by
        intro hc
        have := congrArg Fin.val hc
        simp at this
        omega
      set s1 := rowStep i him hic s0 k with hs1
      have hstep_other : ∀ (r : Fin m) (j : Fin c), j ≠ k → s1.A r j = s0.A r j := by
        intro r j hj
        rw [hs1]
        unfold rowStep
        by_cases h0 : s0.A ⟨i, him⟩ k ≠ 0
        · rw [if_pos h0]
          show (if j = k then _ else s0.A r j) = s0.A r j
          rw [if_neg hj]
        · rw [if_neg h0]
      have hstep_k : ∀ (r : Fin m), s1.A r k =
          if s0.A ⟨i, him⟩ k ≠ 0 then
            s0.A r k + s0.A r ⟨i, hic⟩ *
              (0 - mdiv (s0.A ⟨i, him⟩ k) (s0.A ⟨i, him⟩ ⟨i, hic⟩))
          else s0.A r k := by
        intro r
        rw [hs1]
        unfold rowStep
        by_cases h0 : s0.A ⟨i, him⟩ k ≠ 0
        · rw [if_pos h0, if_pos h0]
          show (if k = k then s0.A r k + _ else _) = _
          rw [if_pos rfl]
        · rw [if_neg h0, if_neg h0]
      obtain ⟨ihOther, ihMem⟩ := rowStep_fold_char i him hic l hgt2 hnd2 s1
      rw [List.foldl_cons]
      refine ⟨?_, ?_⟩
      · intro r j hj
        have hj1 : j ∉ l := fun hc => hj (List.mem_cons_of_mem _ hc)
        have hjk : j ≠ k := fun hc => hj (hc ▸ List.mem_cons_self k l)
        rw [ihOther r j hj1, hstep_other r j hjk]
      · intro x hx r
        rcases List.mem_cons.mp hx with rfl | hx2
        · rw [ihOther r x hkl, hstep_k r]
        · have hxk : x ≠ k := fun hc => hkl (hc ▸ hx2)
          rw [ihMem x hx2 r]
          rw [hstep_other _ x hxk, hstep_other _ x hxk,
            hstep_other r ⟨i, hic⟩ hfik, hstep_other ⟨i, him⟩ ⟨i, hic⟩ hfik]

theorem val_finRange_getElem {n t : ℕ} (h : t < (List.finRange n).length) :
    ((List.finRange n).get ⟨t, h⟩).val = t := by
  rw [List.get_finRange]

theorem mem_finRange_drop {n : ℕ} (i : ℕ) (x : Fin n) :
    x ∈ (List.finRange n).drop i ↔ i ≤ x.val := by
  constructor
  · intro hx
    obtain ⟨j, hj, hget⟩ := List.mem_iff_getElem.mp hx
    have hj2 : i + j < (List.finRange n).length := by
      rw [List.length_drop, List.length_finRange] at hj
      rw [List.length_finRange]
      omega
    rw [List.getElem_drop] at hget
    have hv : ((List.finRange n).get ⟨i + j, hj2⟩).val = i + j :=
      val_finRange_getElem hj2
    rw [List.get_eq_getElem, hget] at hv
    omega
  · intro hle
    rw [List.mem_iff_getElem]
    have hlt : x.val - i < ((List.finRange n).drop i).length := by
      rw [List.length_drop, List.length_finRange]
      have := x.isLt
      omega
    refine ⟨x.val - i, hlt, ?_⟩
    have hj2 : i + (x.val - i) < (List.finRange n).length := by
      rw [List.length_finRange]
      have := x.isLt
      omega
    rw [List.getElem_drop]
    refine Fin.eq_of_val_eq ?_
    have hv : ((List.finRange n).get ⟨i + (x.val - i), hj2⟩).val =
        i + (x.val - i) := val_finRange_getElem hj2
    rw [List.get_eq_getElem] at hv
    rw [hv]
    omega

theorem mem_filter_lt {n : ℕ} (i : ℕ) (x : Fin n) :
    x ∈ ((List.finRange n).filter fun k => i < k.val) ↔ i < x.val := by
  rw [List.mem_filter]
  constructor
  · intro ⟨_, h⟩
    exact of_decide_eq_true h
  · intro h
    exact ⟨List.mem_finRange x, decide_eq_true h⟩

theorem foldl_fmStep_isSome {w n : ℕ} (f : Fin n → M w) :
    ∀ (l : List (Fin n)) (a : Fin n), ∃ b,
      l.foldl (fmStep f) (some a) = some b
  | [], a => ⟨a, rfl⟩
  | j :: l, a => by
      rw [List.foldl_cons, fmStep_some]
      by_cases hlt : (f j).val < (f a).val
      · rw [if_pos hlt]
        exact foldl_fmStep_isSome f l j
      · rw [if_neg hlt]
        exact foldl_fmStep_isSome f l a

theorem firstMin_isSome {w n : ℕ} (f : Fin n → M w) (a : Fin n)
    (l : List (Fin n)) : ∃ b, firstMin (a :: l) f = some b := by
  unfold firstMin
  rw [List.foldl_cons, fmStep_none]
  exact foldl_fmStep_isSome f l a

theorem foldl_fmStep_head {w n : ℕ} (f : Fin n → M w) :
    ∀ (l : List (Fin n)) (a : Fin n),
      (∀ x ∈ l, (f a).val ≤ (f x).val) →
      l.foldl (fmStep f) (some a) = some a
  | [], a, _ => rfl
  | j :: l, a, h => by
      rw [List.foldl_cons, fmStep_some,
        if_neg (not_lt.mpr (h j (List.mem_cons_self j l)))]
      exact foldl_fmStep_head f l a fun x hx =>
        h x (List.mem_cons_of_mem _ hx)

theorem firstMin_head {w n : ℕ} (f : Fin n → M w) (a : Fin n)
    (l : List (Fin n)) (h : ∀ x ∈ l, (f a).val ≤ (f x).val) :
    firstMin (a :: l) f = some a := by
  unfold firstMin
  rw [List.foldl_cons, fmStep_none]
  exact foldl_fmStep_head f l a h

theorem swapRows_self {w m c : ℕ} (i : Fin m) (A : Mat w m c) :
    swapRows i i A = A := by
  ext r k
  simp [swapRows]

theorem swapCols_self {w m c : ℕ} (i : Fin c) (A : Mat w m c) :
    swapCols i i A = A := by
  ext r k
  simp [swapCols]

theorem foldl_preserve_mem {α β : Type} (P : α → Prop) (f : α → β → α) :
    ∀ (l : List β) (s : α), (∀ s b, b ∈ l → P s → P (f s b)) → P s →
      P (l.foldl f s)
  | [], s, _, hs => hs
  | b :: l, s, h, hs =>
      foldl_preserve_mem P f l (f s b)
        (fun s2 b2 hb2 => h s2 b2 (List.mem_cons_of_mem _ hb2))
        (h s b (List.mem_cons_self b l) hs)

theorem mem_colPivots {w m c : ℕ} (A : Mat w m c) (i : ℕ) (hic : i < c)
    (x : Fin m) :
    x ∈ ((List.finRange m).drop i).filter (fun r => A r ⟨i, hic⟩ ≠ 0) ↔
      (i ≤ x.val ∧ A x ⟨i, hic⟩ ≠ 0) := by
  rw [List.mem_filter, mem_finRange_drop]
  constructor
  · intro ⟨h1, h2⟩
    exact ⟨h1, of_decide_eq_true h2⟩
  · intro ⟨h1, h2⟩
    exact ⟨h1, decide_eq_true h2⟩

theorem mem_rowPivots {w m c : ℕ} (A : Mat w m c) (i : ℕ) (him : i < m)
    (x : Fin c) :
    x ∈ ((List.finRange c).drop i).filter (fun k => A ⟨i, him⟩ k ≠ 0) ↔
      (i ≤ x.val ∧ A ⟨i, him⟩ x ≠ 0) := by
  rw [List.mem_filter, mem_finRange_drop]
  constructor
  · intro ⟨h1, h2⟩
    exact ⟨h1, of_decide_eq_true h2⟩
  · intro ⟨h1, h2⟩
    exact ⟨h1, decide_eq_true h2⟩

theorem colPivot_some {w m c : ℕ} (A : Mat w m c) (i : ℕ) (hic : i < c)
    (p : Fin m) (h : colPivot A i hic = some p) :
    i ≤ p.val ∧ A p ⟨i, hic⟩ ≠ 0 ∧
      ∀ r : Fin m, i ≤ r.val → A r ⟨i, hic⟩ ≠ 0 →
        (A p ⟨i, hic⟩).val ≤ (A r ⟨i, hic⟩).val := by
  unfold colPivot firstMin at h
  have hmem := firstMin_mem _ _ none p h
  rcases hmem with hc | hmem
  · exact absurd hc (by simp)
  · rw [mem_colPivots] at hmem
    refine ⟨hmem.1, hmem.2, fun r h1 h2 => ?_⟩
    exact firstMin_le _ _ none p h r ((mem_colPivots A i hic r).mpr ⟨h1, h2⟩)

theorem rowPivot_some {w m c : ℕ} (A : Mat w m c) (i : ℕ) (him : i < m)
    (p : Fin c) (h : rowPivot A i him = some p) :
    i ≤ p.val ∧ A ⟨i, him⟩ p ≠ 0 ∧
      ∀ k : Fin c, i ≤ k.val → A ⟨i, him⟩ k ≠ 0 →
        (A ⟨i, him⟩ p).val ≤ (A ⟨i, him⟩ k).val := by
  unfold rowPivot firstMin at h
  have hmem := firstMin_mem _ _ none p h
  rcases hmem with hc | hmem
  · exact absurd hc (by simp)
  · rw [mem_rowPivots] at hmem
    refine ⟨hmem.1, hmem.2, fun k h1 h2 => ?_⟩
    exact firstMin_le _ _ none p h k ((mem_rowPivots A i him k).mpr ⟨h1, h2⟩)

theorem colPass_pres {w m c : ℕ} (A0 : Mat w m c) (i : ℕ) (him : i < m)
    (hic : i < c) (st : DiagState w m c)
    (h1 : Inv A0 st) (h2 : UnitsInv st) (h3 : ZoneInv i st.A) :
    Inv A0 (colPass i him hic st) ∧ UnitsInv (colPass i him hic st) ∧
      ZoneInv i (colPass i him hic st).A := by
  unfold colPass
  cases hpv : colPivot st.A i hic with
  | none => exact ⟨h1, h2, h3⟩
  | some p =>
    obtain ⟨hpge, hpnz, hpmin⟩ := colPivot_some st.A i hic p hpv
    have hstart : Inv A0 (stSwapRows ⟨i, him⟩ p st) ∧
        UnitsInv (stSwapRows ⟨i, him⟩ p st) ∧
        ZoneInv i (stSwapRows ⟨i, him⟩ p st).A := by
      refine ⟨inv_stSwapRows A0 _ _ st h1,
        ⟨isUnit_swapRows _ _ h2.1, h2.2⟩, ?_⟩
      exact zone_swapRows _ _ h3 (le_refl i) hpge
    refine foldl_preserve_mem
      (fun s => Inv A0 s ∧ UnitsInv s ∧ ZoneInv i s.A) _ _ _ ?_ hstart
    intro s k hk hs
    have hkgt : i < k.val := (mem_filter_lt i k).mp hk
    unfold colStep
    by_cases h0 : s.A k ⟨i, hic⟩ ≠ 0
    · rw [if_pos h0]
      have hne : (⟨i, him⟩ : Fin m) ≠ k := fun hc => by
        have := congrArg Fin.val hc
        simp at this
        omega
      refine ⟨inv_stRowMulAdd A0 _ _ _ _ hs.1,
        ⟨isUnit_rowMulAdd _ _ _ hne hs.2.1.1, hs.2.1.2⟩, ?_⟩
      exact zone_rowMulAdd _ _ _ hs.2.2 rfl hkgt
    · rw [if_neg h0]
      exact hs

theorem rowPass_pres {w m c : ℕ} (A0 : Mat w m c) (i : ℕ) (him : i < m)
    (hic : i < c) (st : DiagState w m c)
    (h1 : Inv A0 st) (h2 : UnitsInv st) (h3 : ZoneInv i st.A) :
    Inv A0 (rowPass i him hic st) ∧ UnitsInv (rowPass i him hic st) ∧
      ZoneInv i (rowPass i him hic st).A := by
  unfold rowPass
  cases hpv : rowPivot st.A i him with
  | none => exact ⟨h1, h2, h3⟩
  | some p =>
    obtain ⟨hpge, hpnz, hpmin⟩ := rowPivot_some st.A i him p hpv
    have hstart : Inv A0 (stSwapCols ⟨i, hic⟩ p st) ∧
        UnitsInv (stSwapCols ⟨i, hic⟩ p st) ∧
        ZoneInv i (stSwapCols ⟨i, hic⟩ p st).A := by
      refine ⟨inv_stSwapCols A0 _ _ st h1,
        ⟨h2.1, isUnit_swapCols _ _ h2.2⟩, ?_⟩
      exact zone_swapCols _ _ h3 (le_refl i) hpge
    refine foldl_preserve_mem
      (fun s => Inv A0 s ∧ UnitsInv s ∧ ZoneInv i s.A) _ _ _ ?_ hstart
    intro s k hk hs
    have hkgt : i < k.val := (mem_filter_lt i k).mp hk
    unfold rowStep
    by_cases h0 : s.A ⟨i, him⟩ k ≠ 0
    · rw [if_pos h0]
      have hne : (⟨i, hic⟩ : Fin c) ≠ k := fun hc => by
        have := congrArg Fin.val hc
        simp at this
        omega
      refine ⟨inv_stColMulAdd A0 _ _ _ _ hs.1,
        ⟨hs.2.1.1, isUnit_colMulAdd _ _ _ hne hs.2.1.2⟩, ?_⟩
      exact zone_colMulAdd _ _ _ hs.2.2 rfl hkgt
    · rw [if_neg h0]
      exact hs

theorem innerLoop_pres {w m c : ℕ} (A0 : Mat w m c) :
    ∀ (fuel i : ℕ) (him : i < m) (hic : i < c) (st st2 : DiagState w m c),
      innerLoop fuel i him hic st = some st2 →
      Inv A0 st → UnitsInv st → ZoneInv i st.A →
      (Inv A0 st2 ∧ UnitsInv st2 ∧ ZoneInv i st2.A ∧
        ¬ colNonzeroBelow st2.A i hic ∧ ¬ rowNonzeroRight st2.A i him)
  | 0, i, him, hic, st, st2, h => by exact absurd h (by simp [innerLoop])
  | fuel + 1, i, him, hic, st, st2, h => by
      intro h1 h2 h3
      rw [innerLoop] at h
      by_cases hcol : colNonzeroBelow st.A i hic
      · rw [if_pos hcol] at h
        obtain ⟨p1, p2, p3⟩ := colPass_pres A0 i him hic st h1 h2 h3
        exact innerLoop_pres A0 fuel i him hic _ st2 h p1 p2 p3
      · rw [if_neg hcol] at h
        by_cases hrow : rowNonzeroRight st.A i him
        · rw [if_pos hrow] at h
          obtain ⟨p1, p2, p3⟩ := rowPass_pres A0 i him hic st h1 h2 h3
          exact innerLoop_pres A0 fuel i him hic _ st2 h p1 p2 p3
        · rw [if_neg hrow] at h
          have heq := Option.some.inj h
          subst heq
          exact ⟨h1, h2, h3, hcol, hrow⟩

theorem zone_step_up {w m c : ℕ} (i : ℕ) (him : i < m) (hic : i < c)
    (A : Mat w m c) (hz : ZoneInv i A)
    (hcol : ¬ colNonzeroBelow A i hic) (hrow : ¬ rowNonzeroRight A i him) :
    ZoneInv (i + 1) A := by
  intro r k hne hlt
  by_cases hold : r.val < i ∨ k.val < i
  · exact hz r k hne hold
  · push_neg at hold
    rcases hlt with hr | hk
    · have hrv : r.val = i := by omega
      have hkv : i < k.val := by omega
      have hreq : r = ⟨i, him⟩ := Fin.eq_of_val_eq hrv
      by_contra hnz
      exact hrow ⟨k, hkv, hreq ▸ hnz⟩
    · have hkv : k.val = i := by omega
      have hrv : i < r.val := by omega
      have hkeq : k = ⟨i, hic⟩ := Fin.eq_of_val_eq hkv
      by_contra hnz
      exact hcol ⟨r, hrv, hkeq ▸ hnz⟩

theorem outer_pres {w m c : ℕ} (A0 : Mat w m c) :
    ∀ (steps d fuel : ℕ) (st st2 : DiagState w m c),
      outerFrom fuel steps d st = some st2 →
      d + steps = min m c →
      Inv A0 st → UnitsInv st → ZoneInv d st.A →
      Inv A0 st2 ∧ UnitsInv st2 ∧ ZoneInv (min m c) st2.A
  | 0, d, fuel, st, st2, h, hd => by
      intro h1 h2 h3
      rw [outerFrom, Option.some.inj h] at *
      rw [Option.some.inj h] at h1 h2 h3
      rw [Nat.add_zero] at hd
      exact ⟨h1, h2, hd ▸ h3⟩
  | steps + 1, d, fuel, st, st2, h, hd => by
      intro h1 h2 h3
      rw [outerFrom] at h
      have hdlt : d < min m c := by omega
      rw [dif_pos hdlt] at h
      obtain ⟨st1, hst1, hrest⟩ := Option.bind_eq_some.mp h
      obtain ⟨p1, p2, p3, p4, p5⟩ := innerLoop_pres A0 fuel d
        (lt_of_lt_of_le hdlt (min_le_left m c))
        (lt_of_lt_of_le hdlt (min_le_right m c)) st st1 hst1 h1 h2 h3
      have hz1 : ZoneInv (d + 1) st1.A := zone_step_up d _ _ st1.A p3 p4 p5
      exact outer_pres A0 steps (d + 1) fuel st1 st2 hrest (by omega) p1 p2 hz1

theorem zone_min_offdiag {w m c : ℕ} (A : Mat w m c)
    (h : ZoneInv (min m c) A) :
    ∀ (r : Fin m) (k : Fin c), r.val ≠ k.val → A r k = 0 := by
  intro r k hne
  refine h r k hne ?_
  rcases le_total m c with hmc | hmc
  · exact Or.inl (lt_of_lt_of_le r.isLt (le_of_eq (min_eq_left hmc).symm))
  · exact Or.inr (lt_of_lt_of_le k.isLt (le_of_eq (min_eq_right hmc).symm))

/-- The main facts about a successful run of `diagonalize`:
`D = S·A·T`, both operation matrices invertible, and `D` diagonal. -/
theorem diagonalize_main {w m c : ℕ} (fuel : ℕ) (A D : Mat w m c)
    (S : Mat w m m) (T : Mat w c c)
    (h : diagonalize fuel A = some (D, S, T)) :
    D = S * A * T ∧ IsUnit S ∧ IsUnit T ∧
      ∀ (r : Fin m) (k : Fin c), r.val ≠ k.val → D r k = 0 := by
  unfold diagonalize at h
  obtain ⟨st2, hst2, heq⟩ := Option.map_eq_some'.mp h
  have e1 : st2.A = D := congrArg Prod.fst heq
  have e2 : st2.S = S := congrArg (fun p => p.2.1) heq
  have e3 : st2.T = T := congrArg (fun p => p.2.2) heq
  have hinv0 : Inv A ⟨A, 1, 1⟩ := by
    show A = 1 * A * 1
    rw [Matrix.one_mul, Matrix.mul_one]
  have hu0 : UnitsInv (⟨A, 1, 1⟩ : DiagState w m c) := ⟨isUnit_one, isUnit_one⟩
  have hz0 : ZoneInv 0 (⟨A, 1, 1⟩ : DiagState w m c).A := by
    intro r k _ hlt
    rcases hlt with h | h <;> omega
  obtain ⟨p1, p2, p3⟩ := outer_pres A (min m c) 0 fuel _ st2 hst2
    (by omega) hinv0 hu0 hz0
  refine ⟨?_, ?_, ?_, ?_⟩
  · rw [← e1, ← e2, ← e3]
    exact p1
  · rw [← e2]
    exact p2.1
  · rw [← e3]
    exact p2.2
  · rw [← e1]
    exact zone_min_offdiag st2.A p3

/-- Rebuild an `Option`-level equality from component-wise `decide`s.  (The
direct `Decidable` instance on options of matrices cannot evaluate, because
it casts along function-equality proofs.) -/
theorem option_triple_eq {α β γ : Type} [DecidableEq α] [DecidableEq β]
    [DecidableEq γ] (o : Option (α × β × γ)) (a : α) (b : β) (c : γ)
    (h1 : o.map (fun p => decide (p.1 = a)) = some true)
    (h2 : o.map (fun p => decide (p.2.1 = b)) = some true)
    (h3 : o.map (fun p => decide (p.2.2 = c)) = some true) :
    o = some (a, b, c) := by
  cases o with
  | none => cases h1
  | some p =>
    obtain ⟨x, y, z⟩ := p
    have e1 : x = a := of_decide_eq_true (Option.some.inj h1)
    have e2 : y = b := of_decide_eq_true (Option.some.inj h2)
    have e3 : z = c := of_decide_eq_true (Option.some.inj h3)
    rw [e1, e2, e3]

/-- C3: a successful `diagonalize` run leaves `D = S·A·T` exactly with every
off-diagonal entry of `D` zero; and the equality `A_cur = S_cur·A₀·T_cur` is
maintained by every elementary operation performed during the computation
(a row swap / row multiply-add applied to `A` and `S` together, and a column
swap / column multiply-add applied to `A` and `T` together). -/
theorem diagonalize_spec {w m c : ℕ} (fuel : ℕ) (A D : Mat w m c)
    (S : Mat w m m) (T : Mat w c c)
    (h : diagonalize fuel A = some (D, S, T)) :
    (D = S * A * T ∧
      (∀ (r : Fin m) (k : Fin c), r.val ≠ k.val → D r k = 0)) ∧
    (∀ (st : DiagState w m c) (i j : Fin m),
      Inv A st → Inv A (stSwapRows i j st)) ∧
    (∀ (st : DiagState w m c) (i j : Fin m) (f : M w),
      Inv A st → Inv A (stRowMulAdd i j f st)) ∧
    (∀ (st : DiagState w m c) (i j : Fin c),
      Inv A st → Inv A (stSwapCols i j st)) ∧
    (∀ (st : DiagState w m c) (i j : Fin c) (f : M w),
      Inv A st → Inv A (stColMulAdd i j f st)) := by
  obtain ⟨h1, _, _, h4⟩ := diagonalize_main fuel A D S T h
  exact ⟨⟨h1, h4⟩,
    fun st i j => inv_stSwapRows A i j st,
    fun st i j f => inv_stRowMulAdd A i j f st,
    fun st i j => inv_stSwapCols A i j st,
    fun st i j f => inv_stColMulAdd A i j f st⟩

/-- Witness for `diagonalize_spec`: the concrete system `A = [[2,4],[6,8]]`
over `ℤ/2^8` diagonalizes to `D = diag(2, 252)` with recorded operations
`S = [[1,0],[253,1]]`, `T = [[1,254],[0,1]]`. -/
theorem diagonalize_spec_witness :
    (diagonalize 1028 (Matrix.of ![![2, 4], ![6, 8]] : Mat 8 2 2) =
      some (Matrix.of ![![2, 0], ![0, 252]],
            Matrix.of ![![1, 0], ![253, 1]],
            Matrix.of ![![1, 254], ![0, 1]])) ∧
    ((Matrix.of ![![2, 0], ![0, 252]] : Mat 8 2 2) =
        Matrix.of ![![1, 0], ![253, 1]] * Matrix.of ![![2, 4], ![6, 8]] *
          Matrix.of ![![1, 254], ![0, 1]] ∧
      (∀ (r : Fin 2) (k : Fin 2), r.val ≠ k.val →
        (Matrix.of ![![2, 0], ![0, 252]] : Mat 8 2 2) r k = 0)) ∧
    (∀ (st : DiagState 8 2 2) (i j : Fin 2),
      Inv (Matrix.of ![![2, 4], ![6, 8]]) st →
        Inv (Matrix.of ![![2, 4], ![6, 8]]) (stSwapRows i j st)) ∧
    (∀ (st : DiagState 8 2 2) (i j : Fin 2) (f : M 8),
      Inv (Matrix.of ![![2, 4], ![6, 8]]) st →
        Inv (Matrix.of ![![2, 4], ![6, 8]]) (stRowMulAdd i j f st)) ∧
    (∀ (st : DiagState 8 2 2) (i j : Fin 2),
      Inv (Matrix.of ![![2, 4], ![6, 8]]) st →
        Inv (Matrix.of ![![2, 4], ![6, 8]]) (stSwapCols i j st)) ∧
    (∀ (st : DiagState 8 2 2) (i j : Fin 2) (f : M 8),
      Inv (Matrix.of ![![2, 4], ![6, 8]]) st →
        Inv (Matrix.of ![![2, 4], ![6, 8]]) (stColMulAdd i j f st)) := by
  have hrun : diagonalize 1028 (Matrix.of ![![2, 4], ![6, 8]] : Mat 8 2 2) =
      some (Matrix.of ![![2, 0], ![0, 252]],
            Matrix.of ![![1, 0], ![253, 1]],
            Matrix.of ![![1, 254], ![0, 1]]) :=
    option_triple_eq _ _ _ _ (by decide) (by decide) (by decide)
  exact ⟨hrun, diagonalize_spec 1028 _ _ _ _ hrun⟩

theorem stSwapRows_A_fi {w m c : ℕ} (i p : Fin m) (st : DiagState w m c)
    (j : Fin c) : (stSwapRows i p st).A i j = st.A p j := by
  show st.A (Equiv.swap i p i) j = st.A p j
  rw [Equiv.swap_apply_left]

theorem stSwapCols_A_fi {w m c : ℕ} (i p : Fin c) (st : DiagState w m c)
    (r : Fin m) : (stSwapCols i p st).A r i = st.A r p := by
  show st.A r (Equiv.swap i p i) = st.A r p
  rw [Equiv.swap_apply_left]

theorem colPass_char {w m c : ℕ} (i : ℕ) (him : i < m) (hic : i < c)
    (st : DiagState w m c) (p : Fin m) (hpv : colPivot st.A i hic = some p) :
    ((colPass i him hic st).A ⟨i, him⟩ ⟨i, hic⟩ = st.A p ⟨i, hic⟩) ∧
    (∀ k : Fin m, i < k.val →
      ((colPass i him hic st).A k ⟨i, hic⟩).val < (st.A p ⟨i, hic⟩).val) := by
  obtain ⟨hpge, hpnz, hpmin⟩ := colPivot_some st.A i hic p hpv
  have hcp : colPass i him hic st =
      ((List.finRange m).filter fun k => i < k.val).foldl
        (colStep i him hic) (stSwapRows ⟨i, him⟩ p st) := by
    unfold colPass
    rw [hpv]
  have hksgt : ∀ k ∈ (List.finRange m).filter fun k => i < k.val,
      i < k.val := fun k hk => (mem_filter_lt i k).mp hk
  have hksnd : ((List.finRange m).filter fun k => i < k.val).Nodup :=
    (List.nodup_finRange m).filter _
  have hfin : (⟨i, him⟩ : Fin m) ∉
      (List.finRange m).filter fun k => i < k.val := by
    intro hc
    have := (mem_filter_lt i _).mp hc
    simp at this
  obtain ⟨hOther, hMem⟩ := colStep_fold_char i him hic _ hksgt hksnd
    (stSwapRows ⟨i, him⟩ p st)
  have hfi1 : ∀ j, (stSwapRows ⟨i, him⟩ p st).A ⟨i, him⟩ j = st.A p j :=
    fun j => stSwapRows_A_fi ⟨i, him⟩ p st j
  have hP1 : (colPass i him hic st).A ⟨i, him⟩ ⟨i, hic⟩ =
      st.A p ⟨i, hic⟩ := by
    rw [hcp, hOther _ _ hfin, hfi1]
  have hpivpos : 0 < (st.A p ⟨i, hic⟩).val :=
    Nat.pos_of_ne_zero fun hv => hpnz ((ZMod.val_eq_zero _).mp hv)
  refine ⟨hP1, fun k hk => ?_⟩
  have hkmem : k ∈ (List.finRange m).filter fun k => i < k.val :=
    (mem_filter_lt i k).mpr hk
  rw [hcp, hMem k hkmem ⟨i, hic⟩]
  set x := (stSwapRows ⟨i, him⟩ p st).A k ⟨i, hic⟩ with hx
  by_cases h0 : x ≠ 0
  · rw [if_pos h0, hfi1]
    have hre : x + st.A p ⟨i, hic⟩ * (0 - mdiv x (st.A p ⟨i, hic⟩)) =
        x - mdiv x (st.A p ⟨i, hic⟩) * st.A p ⟨i, hic⟩ := by
      ring
    rw [hre, sub_mdiv_mul_val_mod]
    exact Nat.mod_lt _ hpivpos
  · rw [if_neg h0]
    push_neg at h0
    rw [h0, ZMod.val_zero]
    exact hpivpos

theorem rowPass_char {w m c : ℕ} (i : ℕ) (him : i < m) (hic : i < c)
    (st : DiagState w m c) (p : Fin c) (hpv : rowPivot st.A i him = some p) :
    ((rowPass i him hic st).A ⟨i, him⟩ ⟨i, hic⟩ = st.A ⟨i, him⟩ p) ∧
    (∀ k : Fin c, i < k.val →
      ((rowPass i him hic st).A ⟨i, him⟩ k).val < (st.A ⟨i, him⟩ p).val) := by
  obtain ⟨hpge, hpnz, hpmin⟩ := rowPivot_some st.A i him p hpv
  have hcp : rowPass i him hic st =
      ((List.finRange c).filter fun k => i < k.val).foldl
        (rowStep i him hic) (stSwapCols ⟨i, hic⟩ p st) := by
    unfold rowPass
    rw [hpv]
  have hksgt : ∀ k ∈ (List.finRange c).filter fun k => i < k.val,
      i < k.val := fun k hk => (mem_filter_lt i k).mp hk
  have hksnd : ((List.finRange c).filter fun k => i < k.val).Nodup :=
    (List.nodup_finRange c).filter _
  have hfin : (⟨i, hic⟩ : Fin c) ∉
      (List.finRange c).filter fun k => i < k.val := by
    intro hc
    have := (mem_filter_lt i _).mp hc
    simp at this
  obtain ⟨hOther, hMem⟩ := rowStep_fold_char i him hic _ hksgt hksnd
    (stSwapCols ⟨i, hic⟩ p st)
  have hfi1 : ∀ r, (stSwapCols ⟨i, hic⟩ p st).A r ⟨i, hic⟩ = st.A r p :=
    fun r => stSwapCols_A_fi ⟨i, hic⟩ p st r
  have hP1 : (rowPass i him hic st).A ⟨i, him⟩ ⟨i, hic⟩ =
      st.A ⟨i, him⟩ p := by
    rw [hcp, hOther _ _ hfin, hfi1]
  have hpivpos : 0 < (st.A ⟨i, him⟩ p).val :=
    Nat.pos_of_ne_zero fun hv => hpnz ((ZMod.val_eq_zero _).mp hv)
  refine ⟨hP1, fun k hk => ?_⟩
  have hkmem : k ∈ (List.finRange c).filter fun k => i < k.val :=
    (mem_filter_lt i k).mpr hk
  rw [hcp, hMem k hkmem ⟨i, him⟩]
  set x := (stSwapCols ⟨i, hic⟩ p st).A ⟨i, him⟩ k with hx
  by_cases h0 : x ≠ 0
  · rw [if_pos h0, hfi1]
    have hre : x + st.A ⟨i, him⟩ p * (0 - mdiv x (st.A ⟨i, him⟩ p)) =
        x - mdiv x (st.A ⟨i, him⟩ p) * st.A ⟨i, him⟩ p := by
      ring
    rw [hre, sub_mdiv_mul_val_mod]
    exact Nat.mod_lt _ hpivpos
  · rw [if_neg h0]
    push_neg at h0
    rw [h0, ZMod.val_zero]
    exact hpivpos

theorem stSwapRows_self {w m c : ℕ} (i : Fin m) (st : DiagState w m c) :
    stSwapRows i i st = st := by
  show (⟨swapRows i i st.A, swapRows i i st.S, st.T⟩ : DiagState w m c) = st
  rw [swapRows_self, swapRows_self]

theorem stSwapCols_self {w m c : ℕ} (i : Fin c) (st : DiagState w m c) :
    stSwapCols i i st = st := by
  show (⟨swapCols i i st.A, st.S, swapCols i i st.T⟩ : DiagState w m c) = st
  rw [swapCols_self, swapCols_self]

theorem colPass_noswap {w m c : ℕ} (i : ℕ) (him : i < m) (hic : i < c)
    (st : DiagState w m c)
    (hfi : st.A ⟨i, him⟩ ⟨i, hic⟩ ≠ 0)
    (hmin : ∀ r : Fin m, i ≤ r.val → st.A r ⟨i, hic⟩ ≠ 0 →
      (st.A ⟨i, him⟩ ⟨i, hic⟩).val ≤ (st.A r ⟨i, hic⟩).val) :
    colPivot st.A i hic = some ⟨i, him⟩ ∧
    ∀ j : Fin c, (colPass i him hic st).A ⟨i, him⟩ j = st.A ⟨i, him⟩ j := by
  have hlen : i < (List.finRange m).length := by
    rw [List.length_finRange]
    exact him
  have hidrop : (List.finRange m).drop i =
      ⟨i, him⟩ :: (List.finRange m).drop (i + 1) := by
    rw [List.drop_eq_getElem_cons hlen]
    congr 1
    exact Fin.eq_of_val_eq (val_finRange_getElem hlen)
  have hfilter : ((List.finRange m).drop i).filter
        (fun r => st.A r ⟨i, hic⟩ ≠ 0) =
      ⟨i, him⟩ :: ((List.finRange m).drop (i + 1)).filter
        (fun r => st.A r ⟨i, hic⟩ ≠ 0) := by
    rw [hidrop, List.filter_cons, if_pos (decide_eq_true hfi)]
  have hpv : colPivot st.A i hic = some ⟨i, him⟩ := by
    unfold colPivot
    rw [hfilter]
    refine firstMin_head _ _ _ fun x hx => ?_
    rw [List.mem_filter, mem_finRange_drop] at hx
    exact hmin x (by omega) (of_decide_eq_true hx.2)
  refine ⟨hpv, fun j => ?_⟩
  have hcp : colPass i him hic st =
      ((List.finRange m).filter fun k => i < k.val).foldl
        (colStep i him hic) st := by
    unfold colPass
    rw [hpv]
    dsimp only
    rw [stSwapRows_self]
  have hksgt : ∀ k ∈ (List.finRange m).filter fun k => i < k.val,
      i < k.val := fun k hk => (mem_filter_lt i k).mp hk
  have hksnd : ((List.finRange m).filter fun k => i < k.val).Nodup :=
    (List.nodup_finRange m).filter _
  have hfin : (⟨i, him⟩ : Fin m) ∉
      (List.finRange m).filter fun k => i < k.val := by
    intro hc
    have := (mem_filter_lt i _).mp hc
    simp at this
  obtain ⟨hOther, _⟩ := colStep_fold_char i him hic _ hksgt hksnd st
  rw [hcp]
  exact hOther _ _ hfin

theorem rowPass_noswap {w m c : ℕ} (i : ℕ) (him : i < m) (hic : i < c)
    (st : DiagState w m c)
    (hfi : st.A ⟨i, him⟩ ⟨i, hic⟩ ≠ 0)
    (hmin : ∀ k : Fin c, i ≤ k.val → st.A ⟨i, him⟩ k ≠ 0 →
      (st.A ⟨i, him⟩ ⟨i, hic⟩).val ≤ (st.A ⟨i, him⟩ k).val) :
    rowPivot st.A i him = some ⟨i, hic⟩ ∧
    ∀ r : Fin m, (rowPass i him hic st).A r ⟨i, hic⟩ = st.A r ⟨i, hic⟩ := by
  have hlen : i < (List.finRange c).length := by
    rw [List.length_finRange]
    exact hic
  have hidrop : (List.finRange c).drop i =
      ⟨i, hic⟩ :: (List.finRange c).drop (i + 1) := by
    rw [List.drop_eq_getElem_cons hlen]
    congr 1
    exact Fin.eq_of_val_eq (val_finRange_getElem hlen)
  have hfilter : ((List.finRange c).drop i).filter
        (fun k => st.A ⟨i, him⟩ k ≠ 0) =
      ⟨i, hic⟩ :: ((List.finRange c).drop (i + 1)).filter
        (fun k => st.A ⟨i, him⟩ k ≠ 0) := by
    rw [hidrop, List.filter_cons, if_pos (decide_eq_true hfi)]
  have hpv : rowPivot st.A i him = some ⟨i, hic⟩ := by
    unfold rowPivot
    rw [hfilter]
    refine firstMin_head _ _ _ fun x hx => ?_
    rw [List.mem_filter, mem_finRange_drop] at hx
    exact hmin x (by omega) (of_decide_eq_true hx.2)
  refine ⟨hpv, fun r => ?_⟩
  have hcp : rowPass i him hic st =
      ((List.finRange c).filter fun k => i < k.val).foldl
        (rowStep i him hic) st := by
    unfold rowPass
    rw [hpv]
    dsimp only
    rw [stSwapCols_self]
  have hksgt : ∀ k ∈ (List.finRange c).filter fun k => i < k.val,
      i < k.val := fun k hk => (mem_filter_lt i k).mp hk
  have hksnd : ((List.finRange c).filter fun k => i < k.val).Nodup :=
    (List.nodup_finRange c).filter _
  have hfin : (⟨i, hic⟩ : Fin c) ∉
      (List.finRange c).filter fun k => i < k.val := by
    intro hc
    have := (mem_filter_lt i _).mp hc
    simp at this
  obtain ⟨hOther, _⟩ := rowStep_fold_char i him hic _ hksgt hksnd st
  rw [hcp]
  exact hOther _ _ hfin

theorem colPivot_isSome {w m c : ℕ} (A : Mat w m c) (i : ℕ) (hic : i < c)
    (h : colNonzeroBelow A i hic) : ∃ p, colPivot A i hic = some p := by
  obtain ⟨k, hki, hknz⟩ := h
  have hkmem : k ∈ ((List.finRange m).drop i).filter
      fun r => A r ⟨i, hic⟩ ≠ 0 := by
    rw [List.mem_filter, mem_finRange_drop]
    exact ⟨by omega, decide_eq_true hknz⟩
  obtain ⟨a, l, hl⟩ := List.exists_cons_of_ne_nil (List.ne_nil_of_mem hkmem)
  unfold colPivot
  rw [hl]
  exact firstMin_isSome _ a l

theorem rowPivot_isSome {w m c : ℕ} (A : Mat w m c) (i : ℕ) (him : i < m)
    (h : rowNonzeroRight A i him) : ∃ p, rowPivot A i him = some p := by
  obtain ⟨k, hki, hknz⟩ := h
  have hkmem : k ∈ ((List.finRange c).drop i).filter
      fun r => A ⟨i, him⟩ r ≠ 0 := by
    rw [List.mem_filter, mem_finRange_drop]
    exact ⟨by omega, decide_eq_true hknz⟩
  obtain ⟨a, l, hl⟩ := List.exists_cons_of_ne_nil (List.ne_nil_of_mem hkmem)
  unfold rowPivot
  rw [hl]
  exact firstMin_isSome _ a l

/-- The pivot potential at index `i`: the value of the diagonal entry, or
`2^w` when that entry is zero (any non-zero pivot strictly improves it). -/
def Phi {w m c : ℕ} (i : ℕ) (him : i < m) (hic : i < c) (A : Mat w m c) :
    ℕ :=
  if A ⟨i, him⟩ ⟨i, hic⟩ = 0 then 2 ^ w else (A ⟨i, him⟩ ⟨i, hic⟩).val

/-- Is there an entry below the pivot whose value has not yet dropped
strictly under the potential? (0 or 1, a summand of the loop measure.) -/
def sigmaC {w m c : ℕ} (i : ℕ) (him : i < m) (hic : i < c)
    (A : Mat w m c) : ℕ :=
  if ∃ k : Fin m, i < k.val ∧ A k ⟨i, hic⟩ ≠ 0 ∧
      Phi i him hic A ≤ (A k ⟨i, hic⟩).val then 1 else 0

/-- The row-direction analogue of `sigmaC`. -/
def sigmaR {w m c : ℕ} (i : ℕ) (him : i < m) (hic : i < c)
    (A : Mat w m c) : ℕ :=
  if ∃ k : Fin c, i < k.val ∧ A ⟨i, him⟩ k ≠ 0 ∧
      Phi i him hic A ≤ (A ⟨i, him⟩ k).val then 1 else 0

/-- The termination measure of the inner loop of `diagonalize`: it strictly
decreases with every column or row elimination pass. -/
def mu {w m c : ℕ} (i : ℕ) (him : i < m) (hic : i < c)
    (st : DiagState w m c) : ℕ :=
  4 * Phi i him hic st.A + 2 * sigmaC i him hic st.A + sigmaR i him hic st.A

theorem Phi_le {w m c : ℕ} (i : ℕ) (him : i < m) (hic : i < c)
    (A : Mat w m c) : Phi i him hic A ≤ 2 ^ w := by
  unfold Phi
  split
  · exact le_refl _
  · exact le_of_lt (ZMod.val_lt _)

theorem sigmaC_le_one {w m c : ℕ} (i : ℕ) (him : i < m) (hic : i < c)
    (A : Mat w m c) : sigmaC i him hic A ≤ 1 := by
  unfold sigmaC
  split <;> omega

theorem sigmaR_le_one {w m c : ℕ} (i : ℕ) (him : i < m) (hic : i < c)
    (A : Mat w m c) : sigmaR i him hic A ≤ 1 := by
  unfold sigmaR
  split <;> omega

theorem mu_le {w m c : ℕ} (i : ℕ) (him : i < m) (hic : i < c)
    (st : DiagState w m c) : mu i him hic st ≤ 4 * 2 ^ w + 3 := by
  have h1 := Phi_le i him hic st.A
  have h2 := sigmaC_le_one i him hic st.A
  have h3 := sigmaR_le_one i him hic st.A
  unfold mu
  omega

theorem mu_col_lt {w m c : ℕ} (i : ℕ) (him : i < m) (hic : i < c)
    (st : DiagState w m c) (h : colNonzeroBelow st.A i hic) :
    mu i him hic (colPass i him hic st) < mu i him hic st := by
  obtain ⟨p, hpv⟩ := colPivot_isSome st.A i hic h
  obtain ⟨hpge, hpnz, hpmin⟩ := colPivot_some st.A i hic p hpv
  obtain ⟨hP1, hP2⟩ := colPass_char i him hic st p hpv
  set st1 := colPass i him hic st with hst1
  set v := (st.A p ⟨i, hic⟩).val with hv
  have hfi1 : st1.A ⟨i, him⟩ ⟨i, hic⟩ ≠ 0 := by
    rw [hP1]
    exact hpnz
  have hPhi1 : Phi i him hic st1.A = v := by
    unfold Phi
    rw [if_neg hfi1, hP1]
  have hvle : v ≤ Phi i him hic st.A := by
    unfold Phi
    by_cases h0 : st.A ⟨i, him⟩ ⟨i, hic⟩ = 0
    · rw [if_pos h0]
      exact le_of_lt (ZMod.val_lt _)
    · rw [if_neg h0]
      exact hpmin ⟨i, him⟩ (le_refl i) h0
  rcases lt_or_eq_of_le hvle with hlt | heq
  · have h1 := sigmaC_le_one i him hic st1.A
    have h2 := sigmaR_le_one i him hic st1.A
    unfold mu
    rw [hPhi1]
    omega
  · have hAfi : st.A ⟨i, him⟩ ⟨i, hic⟩ ≠ 0 := by
      intro h0
      have h5 : Phi i him hic st.A = 2 ^ w := by
        unfold Phi
        rw [if_pos h0]
      have h6 := ZMod.val_lt (st.A p ⟨i, hic⟩)
      omega
    have hPhiA : Phi i him hic st.A = (st.A ⟨i, him⟩ ⟨i, hic⟩).val := by
      unfold Phi
      rw [if_neg hAfi]
    have hmin : ∀ r : Fin m, i ≤ r.val → st.A r ⟨i, hic⟩ ≠ 0 →
        (st.A ⟨i, him⟩ ⟨i, hic⟩).val ≤ (st.A r ⟨i, hic⟩).val := by
      intro r hr hnz
      have h5 := hpmin r hr hnz
      omega
    obtain ⟨hpv2, hrow⟩ := colPass_noswap i him hic st hAfi hmin
    rw [← hst1] at hrow
    have hPhiEq : Phi i him hic st1.A = Phi i him hic st.A := by
      unfold Phi
      rw [hrow ⟨i, hic⟩]
    have hex : ∃ k : Fin m, i < k.val ∧ st.A k ⟨i, hic⟩ ≠ 0 ∧
        Phi i him hic st.A ≤ (st.A k ⟨i, hic⟩).val := by
      obtain ⟨k, hk1, hk2⟩ := h
      refine ⟨k, hk1, hk2, ?_⟩
      have h5 := hpmin k (le_of_lt hk1) hk2
      omega
    have hsc : sigmaC i him hic st.A = 1 := by
      unfold sigmaC
      rw [if_pos hex]
    have hnex : ¬ ∃ k : Fin m, i < k.val ∧ st1.A k ⟨i, hic⟩ ≠ 0 ∧
        Phi i him hic st1.A ≤ (st1.A k ⟨i, hic⟩).val := by
      rintro ⟨k, hk1, _, hk3⟩
      have h5 := hP2 k hk1
      rw [hPhiEq, ← heq] at hk3
      omega
    have hsc1 : sigmaC i him hic st1.A = 0 := by
      unfold sigmaC
      rw [if_neg hnex]
    have hsr : sigmaR i him hic st1.A = sigmaR i him hic st.A := by
      simp only [sigmaR, hPhiEq, hrow]
    unfold mu
    rw [hPhiEq, hsc, hsc1, hsr]
    omega

theorem mu_row_lt {w m c : ℕ} (i : ℕ) (him : i < m) (hic : i < c)
    (st : DiagState w m c) (h : rowNonzeroRight st.A i him) :
    mu i him hic (rowPass i him hic st) < mu i him hic st := by
  obtain ⟨p, hpv⟩ := rowPivot_isSome st.A i him h
  obtain ⟨hpge, hpnz, hpmin⟩ := rowPivot_some st.A i him p hpv
  obtain ⟨hP1, hP2⟩ := rowPass_char i him hic st p hpv
  set st1 := rowPass i him hic st with hst1
  set v := (st.A ⟨i, him⟩ p).val with hv
  have hfi1 : st1.A ⟨i, him⟩ ⟨i, hic⟩ ≠ 0 := by
    rw [hP1]
    exact hpnz
  have hPhi1 : Phi i him hic st1.A = v := by
    unfold Phi
    rw [if_neg hfi1, hP1]
  have hvle : v ≤ Phi i him hic st.A := by
    unfold Phi
    by_cases h0 : st.A ⟨i, him⟩ ⟨i, hic⟩ = 0
    · rw [if_pos h0]
      exact le_of_lt (ZMod.val_lt _)
    · rw [if_neg h0]
      exact hpmin ⟨i, hic⟩ (le_refl i) h0
  rcases lt_or_eq_of_le hvle with hlt | heq
  · have h1 := sigmaC_le_one i him hic st1.A
    have h2 := sigmaR_le_one i him hic st1.A
    unfold mu
    rw [hPhi1]
    omega
  · have hAfi : st.A ⟨i, him⟩ ⟨i, hic⟩ ≠ 0 := by
      intro h0
      have h5 : Phi i him hic st.A = 2 ^ w := by
        unfold Phi
        rw [if_pos h0]
      have h6 := ZMod.val_lt (st.A ⟨i, him⟩ p)
      omega
    have hPhiA : Phi i him hic st.A = (st.A ⟨i, him⟩ ⟨i, hic⟩).val := by
      unfold Phi
      rw [if_neg hAfi]
    have hmin : ∀ k : Fin c, i ≤ k.val → st.A ⟨i, him⟩ k ≠ 0 →
        (st.A ⟨i, him⟩ ⟨i, hic⟩).val ≤ (st.A ⟨i, him⟩ k).val := by
      intro k hk hnz
      have h5 := hpmin k hk hnz
      omega
    obtain ⟨hpv2, hcol⟩ := rowPass_noswap i him hic st hAfi hmin
    rw [← hst1] at hcol
    have hPhiEq : Phi i him hic st1.A = Phi i him hic st.A := by
      unfold Phi
      rw [hcol ⟨i, him⟩]
    have hex : ∃ k : Fin c, i < k.val ∧ st.A ⟨i, him⟩ k ≠ 0 ∧
        Phi i him hic st.A ≤ (st.A ⟨i, him⟩ k).val := by
      obtain ⟨k, hk1, hk2⟩ := h
      refine ⟨k, hk1, hk2, ?_⟩
      have h5 := hpmin k (le_of_lt hk1) hk2
      omega
    have hsr : sigmaR i him hic st.A = 1 := by
      unfold sigmaR
      rw [if_pos hex]
    have hnex : ¬ ∃ k : Fin c, i < k.val ∧ st1.A ⟨i, him⟩ k ≠ 0 ∧
        Phi i him hic st1.A ≤ (st1.A ⟨i, him⟩ k).val := by
      rintro ⟨k, hk1, _, hk3⟩
      have h5 := hP2 k hk1
      rw [hPhiEq, ← heq] at hk3
      omega
    have hsr1 : sigmaR i him hic st1.A = 0 := by
      unfold sigmaR
      rw [if_neg hnex]
    have hsc : sigmaC i him hic st1.A = sigmaC i him hic st.A := by
      simp only [sigmaC, hPhiEq, hcol]
    unfold mu
    rw [hPhiEq, hsr, hsr1, hsc]
    omega

theorem innerLoop_succ {w m c : ℕ} (fuel i : ℕ) (him : i < m)
    (hic : i < c) (st : DiagState w m c) :
    innerLoop (fuel + 1) i him hic st =
      if colNonzeroBelow st.A i hic then
        innerLoop fuel i him hic (colPass i him hic st)
      else if rowNonzeroRight st.A i him then
        innerLoop fuel i him hic (rowPass i him hic st)
      else some st := rfl

theorem innerLoop_isSome {w m c : ℕ} (i : ℕ) (him : i < m) (hic : i < c) :
    ∀ (fuel : ℕ) (st : DiagState w m c), mu i him hic st < fuel →
      (innerLoop fuel i him hic st).isSome = true
  | 0, _, h => absurd h (by omega)
  | fuel + 1, st, h => by
      rw [innerLoop_succ]
      by_cases hc : colNonzeroBelow st.A i hic
      · rw [if_pos hc]
        refine innerLoop_isSome i him hic fuel _ ?_
        have := mu_col_lt i him hic st hc
        omega
      · rw [if_neg hc]
        by_cases hr : rowNonzeroRight st.A i him
        · rw [if_pos hr]
          refine innerLoop_isSome i him hic fuel _ ?_
          have := mu_row_lt i him hic st hr
          omega
        · rw [if_neg hr]
          rfl

theorem outerFrom_succ {w m c : ℕ} (fuel steps d : ℕ)
    (st : DiagState w m c) :
    outerFrom fuel (steps + 1) d st =
      if h : d < min m c then
        (innerLoop fuel d (lt_of_lt_of_le h (min_le_left m c))
            (lt_of_lt_of_le h (min_le_right m c)) st).bind
          (outerFrom fuel steps (d + 1))
      else some st := rfl

theorem outerFrom_isSome {w m c : ℕ} :
    ∀ (steps d : ℕ) (st : DiagState w m c),
      (outerFrom (4 * 2 ^ w + 4) steps d st).isSome = true
  | 0, _, _ => rfl
  | steps + 1, d, st => by
      rw [outerFrom_succ]
      by_cases hd : d < min m c
      · rw [dif_pos hd]
        have hin := innerLoop_isSome d (lt_of_lt_of_le hd (min_le_left m c))
          (lt_of_lt_of_le hd (min_le_right m c)) (4 * 2 ^ w + 4) st
          (by have := mu_le d (lt_of_lt_of_le hd (min_le_left m c))
                (lt_of_lt_of_le hd (min_le_right m c)) st
              omega)
        obtain ⟨st1, hst1⟩ := Option.isSome_iff_exists.mp hin
        rw [hst1, Option.some_bind]
        exact outerFrom_isSome steps (d + 1) st1
      · rw [dif_neg hd]
        rfl

/-- C5: `diagonalize` terminates on every input matrix over ℤ/2^w.  At each
pivot index `i` the inner loop (eliminate column `i` below the pivot,
preferred, else row `i` right of the pivot, the pivot each time a smallest
non-zero entry) finishes within `4·2^w + 4` iterations from any state, so
with that fuel `innerLoop` never runs out and `diagonalize` returns a
result for every matrix. -/
theorem diagonalize_terminates {w m c : ℕ} (A : Mat w m c) (i : ℕ)
    (him : i < m) (hic : i < c) (st : DiagState w m c) :
    (innerLoop (4 * 2 ^ w + 4) i him hic st).isSome = true ∧
    (diagonalize (4 * 2 ^ w + 4) A).isSome = true := by
  constructor
  · refine innerLoop_isSome i him hic _ st ?_
    have := mu_le i him hic st
    omega
  · unfold diagonalize
    rw [Option.isSome_map']
    exact outerFrom_isSome _ _ _

theorem diagonalize_terminates_witness :
    (0 < 1 ∧ 0 < 1) ∧
    ((innerLoop (4 * 2 ^ 1 + 4) 0 Nat.one_pos Nat.one_pos
        (⟨1, 1, 1⟩ : DiagState 1 1 1)).isSome = true ∧
      (diagonalize (4 * 2 ^ 1 + 4) (1 : Mat 1 1 1)).isSome = true) :=
  ⟨⟨Nat.one_pos, Nat.one_pos⟩,
    diagonalize_terminates (1 : Mat 1 1 1) 0 Nat.one_pos Nat.one_pos
      ⟨1, 1, 1⟩⟩

def finMinM {m c : ℕ} (i : Fin (min m c)) : Fin m :=
  ⟨i.val, lt_of_lt_of_le i.isLt (min_le_left m c)⟩

def finMinC {m c : ℕ} (i : Fin (min m c)) : Fin c :=
  ⟨i.val, lt_of_lt_of_le i.isLt (min_le_right m c)⟩

/-- `solve_congruences(A, b)`: diagonalize the system, transform `b` by `S`,
fail (empty lattice, here `none`) if some transformed entry at index
`≥ min(m,c)` is non-zero or some scalar congruence has no solution, and
otherwise assemble the offset from the scalar solutions, the kernel basis
from the non-zero scalar kernels plus a unit vector for every free variable
`m ≤ j < c`, and map everything back through `T`.  The outer `none` also
covers `diagonalize` running out of fuel, which cannot happen for the fuel
bound proved above. -/
def solveCongruences {w m c : ℕ} (fuel : ℕ) (A : Mat w m c)
    (b : Fin m → M w) : Option ((Fin c → M w) × List (Fin c → M w)) :=
  match diagonalize fuel A with
  | none => none
  | some (D, S, T) =>
    let b1 := Matrix.mulVec S b
    if ∃ i : Fin m, min m c ≤ i.val ∧ b1 i ≠ 0 then none
    else
      let sol : (i : Fin (min m c)) → Option (M w × M w) := fun i =>
        solveScalarCongruence (D (finMinM i) (finMinC i)) (b1 (finMinM i))
      if hs : ∀ i, (sol i).isSome = true then
        let xk : Fin (min m c) → M w × M w := fun i => (sol i).get (hs i)
        let offset : Fin c → M w := fun j =>
          if hj : j.val < min m c then (xk ⟨j.val, hj⟩).1 else 0
        let basis : List (Fin c → M w) :=
          (((List.finRange (min m c)).filter fun i => (xk i).2 ≠ 0).map
            fun i j => if j = finMinC i then (xk i).2 else 0) ++
          (((List.finRange c).filter fun j => m ≤ j.val).map
            fun i j => if j = i then 1 else 0)
        some (Matrix.mulVec T offset, basis.map (Matrix.mulVec T))
      else none

/-- Completeness of the scalar solver: on success, `x` solves, `k` spans the
kernel of multiplication by `a`, and every solution is `x + t·k`. -/
theorem solveScalar_complete {w : ℕ} (a b x k : M w)
    (h : solveScalarCongruence a b = some (x, k)) :
    a * x = b ∧ a * k = 0 ∧
    ∀ z : M w, a * z = b → ∃ t : M w, z = x + t * k := by
  by_cases ha : a = 0
  · subst ha
    unfold solveScalarCongruence at h
    rw [if_pos rfl] at h
    by_cases hb : b = 0
    · rw [if_pos hb] at h
      have hxk := Option.some.inj h
      have hx : (0 : M w) = x := congrArg Prod.fst hxk
      have hk : (1 : M w) = k := congrArg Prod.snd hxk
      subst hb
      refine ⟨by rw [← hx]; ring, by rw [← hk]; ring, fun z hz => ⟨z, ?_⟩⟩
      rw [← hx, ← hk]
      ring
    · rw [if_neg hb] at h
      exact absurd h (by simp)
  · obtain ⟨G, T0, T1, S0, S1, hG, hbez0, hbez1, hdet, hshape⟩ :=
      solveScalar_core a b ha
    rw [hshape] at h
    by_cases hcond : a * (mdiv b (G : M w) * (T0 : M w)) ≠ b
    · rw [if_pos hcond] at h
      exact absurd h (by simp)
    · rw [if_neg hcond] at h
      push_neg at hcond
      have hxk := Option.some.inj h
      have hx : mdiv b (G : M w) * (T0 : M w) = x := congrArg Prod.fst hxk
      have hk : ((T1 : ℤ) : M w) = k := congrArg Prod.snd hxk
      set n : ℕ := 2 ^ w with hn
      have hnpos : 0 < n := pow_pos (by norm_num) w
      set Av : ℕ := a.val with hAv
      have hApos : 0 < Av :=
        Nat.pos_of_ne_zero fun hv => ha ((ZMod.val_eq_zero a).mp hv)
      have hgpos : 0 < G := by
        rw [hG]
        exact Nat.gcd_pos_of_pos_right _ hnpos
      have hgA : G ∣ Av := by
        rw [hG]
        exact Nat.gcd_dvd_left _ _
      have hgN : G ∣ n := by
        rw [hG]
        exact Nat.gcd_dvd_right _ _
      set nn : ℕ := n / G with hnn
      set aa : ℕ := Av / G with haa
      have hnG : n = G * nn := (Nat.mul_div_cancel' hgN).symm
      have haG : Av = G * aa := (Nat.mul_div_cancel' hgA).symm
      have hco : Nat.Coprime aa nn := by
        rw [haa, hnn, hG]
        exact Nat.coprime_div_gcd_div_gcd (hG ▸ hgpos)
      have hnnpos : 0 < nn :=
        Nat.div_pos (Nat.le_of_dvd hnpos hgN) hgpos
      have hGZ : (G : ℤ) ≠ 0 := by exact_mod_cast hgpos.ne'
      have h6 : ((n : ℕ) : ℤ) = (G : ℤ) * (nn : ℤ) := by exact_mod_cast hnG
      have h7 : ((Av : ℕ) : ℤ) = (G : ℤ) * (aa : ℤ) := by exact_mod_cast haG
      have hZ1 : S1 * (nn : ℤ) + T1 * (aa : ℤ) = 0 := by
        refine mul_left_cancel₀ hGZ ?_
        calc (G : ℤ) * (S1 * nn + T1 * aa)
            = S1 * ((G : ℤ) * nn) + T1 * ((G : ℤ) * aa) := by ring
          _ = S1 * ((n : ℕ) : ℤ) + T1 * ((Av : ℕ) : ℤ) := by rw [← h6, ← h7]
          _ = 0 := hbez1
          _ = (G : ℤ) * 0 := by ring
      have hZ0 : S0 * (nn : ℤ) + T0 * (aa : ℤ) = 1 := by
        refine mul_left_cancel₀ hGZ ?_
        calc (G : ℤ) * (S0 * nn + T0 * aa)
            = S0 * ((G : ℤ) * nn) + T0 * ((G : ℤ) * aa) := by ring
          _ = S0 * ((n : ℕ) : ℤ) + T0 * ((Av : ℕ) : ℤ) := by rw [← h6, ← h7]
          _ = (G : ℤ) := hbez0
          _ = (G : ℤ) * 1 := by ring
      have hdvd : (nn : ℤ) ∣ T1 * (aa : ℤ) := ⟨-S1, by linarith⟩
      have hcoZ : IsCoprime ((nn : ℕ) : ℤ) ((aa : ℕ) : ℤ) :=
        (Nat.isCoprime_iff_coprime.mpr hco).symm
      have hdvdT1 : (nn : ℤ) ∣ T1 := hcoZ.dvd_of_dvd_mul_right hdvd
      obtain ⟨u, hu⟩ := hdvdT1
      have hnnZ : (nn : ℤ) ≠ 0 := by exact_mod_cast hnnpos.ne'
      have hS1 : S1 = -(u * (aa : ℤ)) := by
        have h5 : (nn : ℤ) * (u * aa + S1) = 0 := by
          rw [hu] at hZ1
          linarith [hZ1]
        rcases mul_eq_zero.mp h5 with h8 | h8
        · exact absurd h8 hnnZ
        · linarith
      have hu1 : u = 1 ∨ u = -1 := by
        have h8 : T0 * S1 - T1 * S0 =
            -(u * (S0 * (nn : ℤ) + T0 * (aa : ℤ))) := by
          rw [hu, hS1]
          ring
        rw [hZ0, mul_one] at h8
        rcases hdet with h9 | h9 <;> omega
      have hcast_a : ((Av : ℕ) : M w) = a := ZMod.natCast_zmod_val a
      have hann : a * ((nn : ℕ) : M w) = 0 := by
        have h5 : a * ((nn : ℕ) : M w) = ((Av * nn : ℕ) : M w) := by
          rw [← hcast_a]
          push_cast
          ring
        have h9 : Av * nn = aa * n := by
          rw [haG, hnG]
          ring
        rw [h5, h9]
        push_cast
        rw [ZMod.natCast_self]
        ring
      have hk' : ((T1 : ℤ) : M w) = ((nn : ℕ) : M w) * ((u : ℤ) : M w) := by
        rw [hu]
        push_cast
        ring
      have hk0 : a * k = 0 := by
        rw [← hk, hk']
        calc a * (((nn : ℕ) : M w) * ((u : ℤ) : M w))
            = a * ((nn : ℕ) : M w) * ((u : ℤ) : M w) := by ring
          _ = 0 * ((u : ℤ) : M w) := by rw [hann]
          _ = 0 := by ring
      have hker : ∀ z : M w, a * z = 0 → ∃ s : M w, z = s * ((nn : ℕ) : M w) := by
        intro z hz
        have h5 : ((Av * z.val : ℕ) : M w) = 0 := by
          push_cast
          rw [hcast_a, ZMod.natCast_zmod_val]
          exact hz
        have hdv : n ∣ Av * z.val := by
          rwa [ZMod.natCast_zmod_eq_zero_iff_dvd] at h5
        have h8 : G * nn ∣ G * (aa * z.val) := by
          rw [← hnG, ← mul_assoc, ← haG]
          exact hdv
        have h9 : nn ∣ aa * z.val :=
          (mul_dvd_mul_iff_left hgpos.ne').mp h8
        have h10 : nn ∣ z.val := (hco.symm).dvd_of_dvd_mul_left h9
        obtain ⟨sv, hsv⟩ := h10
        refine ⟨((sv : ℕ) : M w), ?_⟩
        rw [← ZMod.natCast_zmod_val z, hsv]
        push_cast
        ring
      have hkerk : ∀ z : M w, a * z = 0 → ∃ t : M w, z = t * k := by
        intro z hz
        obtain ⟨s, hs⟩ := hker z hz
        rcases hu1 with h9 | h9
        · refine ⟨s, ?_⟩
          rw [hs, ← hk, hk', h9]
          push_cast
          ring
        · refine ⟨-s, ?_⟩
          rw [hs, ← hk, hk', h9]
          push_cast
          ring
      have hax : a * x = b := by
        rw [← hx]
        exact hcond
      refine ⟨hax, hk0, fun z hz => ?_⟩
      have h5 : a * (z - x) = 0 := by
        rw [mul_sub, hz, hax, sub_self]
      obtain ⟨t, ht⟩ := hkerk (z - x) h5
      refine ⟨t, ?_⟩
      rw [← ht]
      ring

theorem mulVec_entry {w m c : ℕ} (D : Mat w m c) (v : Fin c → M w)
    (i : Fin m) : Matrix.mulVec D v i = ∑ j, D i j * v j := rfl

/-- The full correctness of `solve_congruences`, in helper form. -/
theorem solveCongruences_sound {w m c : ℕ} (fuel : ℕ) (A : Mat w m c)
    (b : Fin m → M w) (off : Fin c → M w) (basis : List (Fin c → M w))
    (h : solveCongruences fuel A b = some (off, basis)) :
    Matrix.mulVec A off = b ∧
    (∀ v ∈ basis, Matrix.mulVec A v = 0) ∧
    ∀ x : Fin c → M w, Matrix.mulVec A x = b ↔
      x - off ∈ Submodule.span (M w) {v | v ∈ basis} := by
  unfold solveCongruences at h
  rcases hdg : diagonalize fuel A with _ | ⟨⟨D, S, T⟩⟩
  · rw [hdg] at h
    exact absurd h (by simp)
  rw [hdg] at h
  dsimp only at h
  by_cases hbz0 : ∃ i : Fin m, min m c ≤ i.val ∧ Matrix.mulVec S b i ≠ 0
  · rw [if_pos hbz0] at h
    exact absurd h (by simp)
  rw [if_neg hbz0] at h
  push_neg at hbz0
  by_cases hs : ∀ i : Fin (min m c),
      (solveScalarCongruence (D (finMinM i) (finMinC i))
        (Matrix.mulVec S b (finMinM i))).isSome = true
  swap
  · rw [dif_neg hs] at h
    exact absurd h (by simp)
  rw [dif_pos hs] at h
  have hpair := Option.some.inj h
  obtain ⟨hDSAT, hSunit, hTunit, hdiag⟩ := diagonalize_main fuel A D S T hdg
  obtain ⟨S', hS'1, hS'2⟩ : ∃ S', S * S' = 1 ∧ S' * S = 1 := by
    obtain ⟨u, hu⟩ := hSunit
    exact ⟨↑u⁻¹, by rw [← hu]; exact u.mul_inv, by rw [← hu]; exact u.inv_mul⟩
  obtain ⟨T', hT'1, hT'2⟩ : ∃ T', T * T' = 1 ∧ T' * T = 1 := by
    obtain ⟨u, hu⟩ := hTunit
    exact ⟨↑u⁻¹, by rw [← hu]; exact u.mul_inv, by rw [← hu]; exact u.inv_mul⟩
  set b1 : Fin m → M w := Matrix.mulVec S b with hb1
  set xk : Fin (min m c) → M w × M w := fun i =>
    (solveScalarCongruence (D (finMinM i) (finMinC i))
      (b1 (finMinM i))).get (hs i) with hxk
  set offset0 : Fin c → M w := fun j =>
    if hj : j.val < min m c then (xk ⟨j.val, hj⟩).1 else 0 with hoffset0
  set basis0 : List (Fin c → M w) :=
    (((List.finRange (min m c)).filter fun i => (xk i).2 ≠ 0).map
      fun i j => if j = finMinC i then (xk i).2 else 0) ++
    (((List.finRange c).filter fun j => m ≤ j.val).map
      fun i j => if j = i then 1 else 0) with hbasis0
  have hoff : Matrix.mulVec T offset0 = off := congrArg Prod.fst hpair
  have hbas : basis0.map (Matrix.mulVec T) = basis := congrArg Prod.snd hpair
  -- the scalar facts
  have hsol : ∀ i : Fin (min m c),
      solveScalarCongruence (D (finMinM i) (finMinC i)) (b1 (finMinM i)) =
        some ((xk i).1, (xk i).2) := by
    intro i
    rw [hxk]
    exact (Option.some_get (hs i)).symm
  have hfact := fun i : Fin (min m c) =>
    solveScalar_complete (D (finMinM i) (finMinC i)) (b1 (finMinM i))
      (xk i).1 (xk i).2 (hsol i)
  -- D ·ᵥ offset0 = b1
  have hDoff : Matrix.mulVec D offset0 = b1 := by
    funext i
    rw [mulVec_entry]
    by_cases hi : i.val < min m c
    · rw [Finset.sum_eq_single (finMinC ⟨i.val, hi⟩)]
      · have ho : offset0 (finMinC ⟨i.val, hi⟩) = (xk ⟨i.val, hi⟩).1 := by
          rw [hoffset0]
          exact dif_pos hi
        rw [ho]
        exact (hfact ⟨i.val, hi⟩).1
      · intro j _ hj
        have hjv : (j : Fin c).val ≠ i.val := by
          intro hc
          exact hj (Fin.ext hc)
        rw [hdiag i j (Ne.symm hjv), zero_mul]
      · intro hc
        exact absurd (Finset.mem_univ _) hc
    · have hb1z : b1 i = 0 := hbz0 i (by omega)
      rw [hb1z]
      refine Finset.sum_eq_zero fun j _ => ?_
      by_cases hji : j.val = i.val
      · have hoz : offset0 j = 0 := by
          rw [hoffset0]
          exact dif_neg (by omega)
        rw [hoz, mul_zero]
      · rw [hdiag i j (Ne.symm hji), zero_mul]
  -- every basis0 vector is in the kernel of D
  have hDker : ∀ v ∈ basis0, Matrix.mulVec D v = 0 := by
    intro v hv
    rw [hbasis0] at hv
    rcases List.mem_append.mp hv with hv1 | hv2
    · obtain ⟨i, _, hvi⟩ := List.mem_map.mp hv1
      have hvj : ∀ j, v j = if j = finMinC i then (xk i).2 else 0 := by
        intro j
        rw [← hvi]
      funext r
      show Matrix.mulVec D v r = 0
      rw [mulVec_entry]
      rw [Finset.sum_eq_single (finMinC i)]
      · rw [hvj, if_pos rfl]
        by_cases hri : r.val = i.val
        · have hr : r = finMinM i := Fin.ext hri
          rw [hr]
          exact (hfact i).2.1
        · rw [hdiag r (finMinC i) hri, zero_mul]
      · intro j _ hj
        rw [hvj, if_neg hj, mul_zero]
      · intro hc
        exact absurd (Finset.mem_univ _) hc
    · obtain ⟨i, hif, hvi⟩ := List.mem_map.mp hv2
      have hmi : m ≤ i.val := by
        have := (List.mem_filter.mp hif).2
        exact of_decide_eq_true this
      have hvj : ∀ j, v j = if j = i then (1 : M w) else 0 := by
        intro j
        rw [← hvi]
      funext r
      show Matrix.mulVec D v r = 0
      rw [mulVec_entry]
      rw [Finset.sum_eq_single i]
      · rw [hvj, if_pos rfl,
          hdiag r i (by have := r.isLt; omega), zero_mul]
      · intro j _ hj
        rw [hvj, if_neg hj, mul_zero]
      · intro hc
        exact absurd (Finset.mem_univ _) hc
  -- completeness at the diagonal level
  have hDcomp : ∀ y : Fin c → M w, Matrix.mulVec D y = b1 →
      y - offset0 ∈ Submodule.span (M w) {v | v ∈ basis0} := by
    intro y hy
    have hrow : ∀ i : Fin (min m c),
        D (finMinM i) (finMinC i) * y (finMinC i) = b1 (finMinM i) := by
      intro i
      have h5 : Matrix.mulVec D y (finMinM i) = b1 (finMinM i) := by
        rw [hy]
      rw [mulVec_entry] at h5
      rw [← h5]
      rw [Finset.sum_eq_single (finMinC i)]
      · intro j _ hj
        have hjv : (j : Fin c).val ≠ i.val := by
          intro hc
          exact hj (Fin.ext hc)
        rw [hdiag (finMinM i) j (Ne.symm hjv), zero_mul]
      · intro hc
        exact absurd (Finset.mem_univ _) hc
    have hdecomp : y - offset0 = ∑ j : Fin c,
        (fun j' : Fin c => if j' = j then (y - offset0) j else 0) := by
      funext j'
      rw [Finset.sum_apply]
      rw [Finset.sum_ite_eq]
      rw [if_pos (Finset.mem_univ j')]
    rw [hdecomp]
    refine Submodule.sum_mem _ fun j _ => ?_
    by_cases hj : j.val < min m c
    · set i : Fin (min m c) := ⟨j.val, hj⟩ with hi
      have hji : j = finMinC i := Fin.ext rfl
      obtain ⟨t, ht⟩ := (hfact i).2.2 (y (finMinC i)) (hrow i)
      have hdj : (y - offset0) j = t * (xk i).2 := by
        have ho : offset0 j = (xk i).1 := by
          rw [hoffset0]
          exact dif_pos hj
        have hyj : y j = (xk i).1 + t * (xk i).2 := by
          rw [hji]
          exact ht
        rw [Pi.sub_apply, hyj, ho]
        ring
      by_cases hki : (xk i).2 = 0
      · have hz : (fun j' : Fin c =>
            if j' = j then (y - offset0) j else 0) = 0 := by
          funext j'
          by_cases hj' : j' = j
          · rw [if_pos hj', hdj, hki, mul_zero]
            rfl
          · rw [if_neg hj']
            rfl
        rw [hz]
        exact Submodule.zero_mem _
      · have hmem : (fun j' : Fin c =>
            if j' = finMinC i then (xk i).2 else 0) ∈ basis0 := by
          rw [hbasis0]
          refine List.mem_append_left _ ?_
          refine List.mem_map.mpr ⟨i, ?_, rfl⟩
          rw [List.mem_filter]
          exact ⟨List.mem_finRange i, decide_eq_true hki⟩
        have hsc : (fun j' : Fin c =>
            if j' = j then (y - offset0) j else 0) =
            t • fun j' : Fin c => if j' = finMinC i then (xk i).2 else 0 := by
          funext j'
          rw [Pi.smul_apply]
          by_cases hj' : j' = j
          · rw [if_pos hj', if_pos (hj'.trans hji), hdj]
            rfl
          · rw [if_neg hj', if_neg fun hc => hj' (hc.trans hji.symm)]
            rw [smul_zero]
        rw [hsc]
        exact Submodule.smul_mem _ t
          (Submodule.subset_span hmem)
    · have hmj : m ≤ j.val := by
        have h5 : min m c ≤ j.val := by omega
        have h6 := j.isLt
        omega
      have ho : offset0 j = 0 := by
        rw [hoffset0]
        exact dif_neg hj
      have hmem : (fun j' : Fin c => if j' = j then (1 : M w) else 0) ∈
          basis0 := by
        rw [hbasis0]
        refine List.mem_append_right _ ?_
        refine List.mem_map.mpr ⟨j, ?_, rfl⟩
        rw [List.mem_filter]
        exact ⟨List.mem_finRange j, decide_eq_true hmj⟩
      have hsc : (fun j' : Fin c =>
          if j' = j then (y - offset0) j else 0) =
          ((y - offset0) j) • fun j' : Fin c =>
            if j' = j then (1 : M w) else 0 := by
        funext j'
        rw [Pi.smul_apply]
        by_cases hj' : j' = j
        · rw [if_pos hj', if_pos hj', smul_eq_mul, mul_one]
        · rw [if_neg hj', if_neg hj', smul_zero]
      rw [hsc]
      exact Submodule.smul_mem _ _ (Submodule.subset_span hmem)
  -- lift everything through S and T
  have hAT : A * T = S' * D := by
    rw [hDSAT, ← Matrix.mul_assoc, ← Matrix.mul_assoc, hS'2,
      Matrix.one_mul]
  have hAoff : Matrix.mulVec A off = b := by
    rw [← hoff, Matrix.mulVec_mulVec, hAT, ← Matrix.mulVec_mulVec, hDoff,
      hb1, Matrix.mulVec_mulVec, hS'2, Matrix.one_mulVec]
  have hAker : ∀ v ∈ basis, Matrix.mulVec A v = 0 := by
    intro v hv
    rw [← hbas] at hv
    obtain ⟨v0, hv0, hvi⟩ := List.mem_map.mp hv
    rw [← hvi, Matrix.mulVec_mulVec, hAT, ← Matrix.mulVec_mulVec,
      hDker v0 hv0, Matrix.mulVec_zero]
  refine ⟨hAoff, hAker, fun x => ⟨fun hx => ?_, fun hx => ?_⟩⟩
  · -- a solution lies in the lattice
    have hyx : Matrix.mulVec T (Matrix.mulVec T' x) = x := by
      rw [Matrix.mulVec_mulVec, hT'1, Matrix.one_mulVec]
    have hDy : Matrix.mulVec D (Matrix.mulVec T' x) = b1 := by
      rw [hDSAT]
      rw [← Matrix.mulVec_mulVec, ← Matrix.mulVec_mulVec, hyx, hx, hb1]
    have hmem := hDcomp (Matrix.mulVec T' x) hDy
    have him : {v | v ∈ basis} =
        Matrix.mulVecLin T '' {v | v ∈ basis0} := by
      ext v
      constructor
      · intro hv
        rw [← hbas] at hv
        obtain ⟨v0, hv0, hvi⟩ := List.mem_map.mp hv
        exact ⟨v0, hv0, hvi⟩
      · rintro ⟨v0, hv0, hvi⟩
        rw [← hbas]
        exact List.mem_map.mpr ⟨v0, hv0, hvi⟩
    have hximg : x - off = Matrix.mulVecLin T
        (Matrix.mulVec T' x - offset0) := by
      rw [Matrix.mulVecLin_apply, Matrix.mulVec_sub, hyx, hoff]
    rw [him, Submodule.span_image, hximg]
    exact Submodule.mem_map_of_mem hmem
  · -- every lattice point is a solution
    have hsub : Submodule.span (M w) {v | v ∈ basis} ≤
        LinearMap.ker (Matrix.mulVecLin A) := by
      rw [Submodule.span_le]
      intro v hv
      rw [SetLike.mem_coe, LinearMap.mem_ker, Matrix.mulVecLin_apply]
      exact hAker v hv
    have hx0 : Matrix.mulVec A (x - off) = 0 := by
      have := hsub hx
      rw [LinearMap.mem_ker, Matrix.mulVecLin_apply] at this
      exact this
    rw [Matrix.mulVec_sub, hAoff] at hx0
    have h5 : Matrix.mulVec A x = b := by
      have h6 := sub_eq_zero.mp hx0
      rw [h6]
    exact h5

/-- C4: if `solve_congruences(A, b)` returns a non-empty affine lattice
`(offset, basis)`, then `A·offset = b`, every basis vector lies in the
kernel of `A` (hence every lattice point `offset + Σ aᵢ·basisᵢ` solves the
system), and conversely every solution of `A·x = b` is `offset` plus a
combination of the basis vectors. -/
theorem solveCongruences_spec {w m c : ℕ} (fuel : ℕ) (A : Mat w m c)
    (b : Fin m → M w) (off : Fin c → M w) (basis : List (Fin c → M w))
    (h : solveCongruences fuel A b = some (off, basis)) :
    Matrix.mulVec A off = b ∧
    (∀ v ∈ basis, Matrix.mulVec A v = 0) ∧
    ∀ x : Fin c → M w, Matrix.mulVec A x = b ↔
      x - off ∈ Submodule.span (M w) {v | v ∈ basis} :=
  solveCongruences_sound fuel A b off basis h

theorem option_pair_eq {α β : Type} [DecidableEq α] [DecidableEq β]
    (o : Option (α × β)) (a : α) (b : β)
    (h1 : o.map (fun p => decide (p.1 = a)) = some true)
    (h2 : o.map (fun p => decide (p.2 = b)) = some true) :
    o = some (a, b) := by
  cases o with
  | none => cases h1
  | some p =>
    obtain ⟨x, y⟩ := p
    have e1 : x = a := of_decide_eq_true (Option.some.inj h1)
    have e2 : y = b := of_decide_eq_true (Option.some.inj h2)
    rw [e1, e2]

set_option maxRecDepth 4000 in
theorem solveCongruences_spec_witness :
    solveCongruences 1028 (Matrix.of ![![2, 4], ![6, 8]] : Mat 8 2 2)
        ![2, 6] = some (![1, 0], [![128, 0], ![128, 64]]) ∧
    (Matrix.mulVec (Matrix.of ![![2, 4], ![6, 8]] : Mat 8 2 2) ![1, 0] =
        ![2, 6] ∧
      (∀ v ∈ [![(128 : M 8), 0], ![128, 64]],
        Matrix.mulVec (Matrix.of ![![2, 4], ![6, 8]] : Mat 8 2 2) v = 0) ∧
      ∀ x : Fin 2 → M 8,
        Matrix.mulVec (Matrix.of ![![2, 4], ![6, 8]] : Mat 8 2 2) x =
            ![2, 6] ↔
          x - ![1, 0] ∈ Submodule.span (M 8)
            {v | v ∈ [![(128 : M 8), 0], ![128, 64]]}) := by
  have hrun : solveCongruences 1028
      (Matrix.of ![![2, 4], ![6, 8]] : Mat 8 2 2) ![2, 6] =
      some (![1, 0], [![128, 0], ![128, 64]]) :=
    option_pair_eq _ _ _ (by decide) (by decide)
  exact ⟨hrun, solveCongruences_spec 1028 _ _ _ _ hrun⟩

/-- `UExpr` (`uniform_expr.rs`): expressions uniform in all bits; `Ones` is
the all-ones word, i.e. `-1`. -/
inductive UExpr : Type
  | Ones : UExpr
  | Var : String → UExpr
  | Not : UExpr → UExpr
  | And : UExpr → UExpr → UExpr
  | Or : UExpr → UExpr → UExpr
  | Xor : UExpr → UExpr → UExpr
  deriving DecidableEq

/-- `UExpr::eval`. -/
def UExpr.eval {w : ℕ} : UExpr → (String → M w) → M w
  | .Ones, _ => 0 - 1
  | .Var c, v => v c
  | .Not e, v => bitNot (e.eval v)
  | .And e1 e2, v => bitAnd (e1.eval v) (e2.eval v)
  | .Or e1 e2, v => bitOr (e1.eval v) (e2.eval v)
  | .Xor e1 e2, v => bitXor (e1.eval v) (e2.eval v)

/-- `UExpr::vars_impl`: collect the variables into a deduplicating
accumulator (the `BTreeSet`; kept in insertion order here, which no claim
depends on). -/
def UExpr.varsAcc : UExpr → List String → List String
  | .Ones, s => s
  | .Var c, s => if c ∈ s then s else s ++ [c]
  | .Not e, s => e.varsAcc s
  | .And e1 e2, s => e2.varsAcc (e1.varsAcc s)
  | .Or e1 e2, s => e2.varsAcc (e1.varsAcc s)
  | .Xor e1 e2, s => e2.varsAcc (e1.varsAcc s)

/-- `LUExpr`: a linear combination of uniform expressions. -/
abbrev LUExpr (w : ℕ) : Type := List (M w × UExpr)

/-- `LUExpr::eval`: map each term to `coeff * eval` and fold with `+`
starting from zero. -/
def LUExpr.eval {w : ℕ} (l : LUExpr w) (v : String → M w) : M w :=
  (l.map fun t => t.1 * t.2.eval v).foldl (fun x y => x + y) 0

/-- `LUExpr::vars_impl`. -/
def LUExpr.varsAcc {w : ℕ} (l : LUExpr w) (s : List String) : List String :=
  l.foldl (fun s t => t.2.varsAcc s) s

/-- The variable list collected by `rewrite`: the variables of `expr`
followed by those of each operation. -/
def rewriteVars {w : ℕ} (expr : LUExpr w) (ops : List (LUExpr w)) :
    List String :=
  ops.foldl (fun s op => LUExpr.varsAcc op s) (LUExpr.varsAcc expr [])

/-- The valuation used for row `i` of the linear system: variable number
`j` of the list gets `0` if bit `j` of `i` is clear and `-1` otherwise. -/
def rowVal {w : ℕ} (vlist : List String) (i : ℕ) : String → M w :=
  fun c => if (i >>> vlist.indexOf c) &&& 1 = 0 then 0 else 0 - 1

/-- The matrix of `rewrite`: row `i`, column `j` holds the value of
operation `j` under the row-`i` valuation. -/
def rewriteMat {w : ℕ} (expr : LUExpr w) (ops : List (LUExpr w)) :
    Mat w (2 ^ (rewriteVars expr ops).length) ops.length :=
  Matrix.of fun i j =>
    LUExpr.eval (ops.get j) (rowVal (rewriteVars expr ops) i.val)

/-- The right-hand side of `rewrite`: the value of `expr` under the
row-`i` valuation. -/
def rewriteVec {w : ℕ} (expr : LUExpr w) (ops : List (LUExpr w)) :
    Fin (2 ^ (rewriteVars expr ops).length) → M w :=
  fun i => LUExpr.eval expr (rowVal (rewriteVars expr ops) i.val)

/-- Merging a term into the linear combination being assembled: add the
coefficient onto the first term with the same `UExpr`, else push. -/
def addTerm {w : ℕ} : List (M w × UExpr) → M w × UExpr → List (M w × UExpr)
  | [], t => [t]
  | (f, u) :: rest, t =>
    if u = t.2 then (f + t.1, u) :: rest else (f, u) :: addTerm rest t

/-- `rewrite(expr, ops, randomize)`: build the linear system over all zero-or-minus-one
valuations of the collected variables, solve it, sample a lattice point
(`rand` supplies the random scalars consumed one per basis vector), and
assemble the resulting linear combination, merging equal `UExpr`s and
dropping zero coefficients. -/
def rewrite {w : ℕ} (fuel : ℕ) (expr : LUExpr w) (ops : List (LUExpr w))
    (randomize : Bool) (rand : ℕ → M w) : Option (LUExpr w) :=
  match solveCongruences fuel (rewriteMat expr ops) (rewriteVec expr ops) with
  | none => none
  | some (off, basis) =>
    let solution : Fin ops.length → M w :=
      if randomize then
        basis.enum.foldl (fun acc kb => acc + fun j => kb.2 j * rand kb.1) off
      else off
    let terms : List (M w × UExpr) :=
      ((List.finRange ops.length).map fun j =>
        (ops.get j).map fun t => (solution j * t.1, t.2)).flatten
    some ((terms.foldl addTerm []).filter fun t => ¬ t.1 = 0)

/-- The row index whose valuation realizes `val` on the variable list. -/
def rowIndex {w : ℕ} (vlist : List String) (val : String → M w) : ℕ :=
  match vlist with
  | [] => 0
  | c :: rest => (if val c = 0 then 0 else 1) + 2 * rowIndex rest val

theorem UExpr.varsAcc_sub : ∀ (e : UExpr) (s : List String),
    s ⊆ e.varsAcc s
  | .Ones, s => List.Subset.refl s
  | .Var c, s => by
      show s ⊆ if c ∈ s then s else s ++ [c]
      by_cases hc : c ∈ s
      · rw [if_pos hc]
        exact List.Subset.refl s
      · rw [if_neg hc]
        exact List.subset_append_left s [c]
  | .Not e, s => UExpr.varsAcc_sub e s
  | .And e1 e2, s =>
      (UExpr.varsAcc_sub e1 s).trans (UExpr.varsAcc_sub e2 _)
  | .Or e1 e2, s =>
      (UExpr.varsAcc_sub e1 s).trans (UExpr.varsAcc_sub e2 _)
  | .Xor e1 e2, s =>
      (UExpr.varsAcc_sub e1 s).trans (UExpr.varsAcc_sub e2 _)

theorem luVarsAcc_sub {w : ℕ} : ∀ (l : LUExpr w) (s : List String),
    s ⊆ LUExpr.varsAcc l s
  | [], s => List.Subset.refl s
  | t :: rest, s =>
      (UExpr.varsAcc_sub t.2 s).trans (luVarsAcc_sub rest _)

theorem UExpr.varsAcc_nodup : ∀ (e : UExpr) (s : List String),
    s.Nodup → (e.varsAcc s).Nodup
  | .Ones, _, h => h
  | .Var c, s, h => by
      show (if c ∈ s then s else s ++ [c]).Nodup
      by_cases hc : c ∈ s
      · rw [if_pos hc]
        exact h
      · rw [if_neg hc]
        rw [List.nodup_append]
        refine ⟨h, List.nodup_singleton c, ?_⟩
        intro a ha hb
        rw [List.mem_singleton] at hb
        subst hb
        exact hc ha
  | .Not e, s, h => e.varsAcc_nodup s h
  | .And e1 e2, s, h => e2.varsAcc_nodup _ (e1.varsAcc_nodup s h)
  | .Or e1 e2, s, h => e2.varsAcc_nodup _ (e1.varsAcc_nodup s h)
  | .Xor e1 e2, s, h => e2.varsAcc_nodup _ (e1.varsAcc_nodup s h)

theorem luVarsAcc_nodup {w : ℕ} : ∀ (l : LUExpr w) (s : List String),
    s.Nodup → (LUExpr.varsAcc l s).Nodup
  | [], _, h => h
  | t :: rest, s, h =>
      luVarsAcc_nodup rest _ (t.2.varsAcc_nodup s h)

theorem foldl_vars_sub {w : ℕ} : ∀ (ops : List (LUExpr w)) (s : List String),
    s ⊆ ops.foldl (fun s op => LUExpr.varsAcc op s) s
  | [], s => List.Subset.refl s
  | op :: rest, s =>
      (luVarsAcc_sub op s).trans (foldl_vars_sub rest _)

theorem foldl_vars_mem {w : ℕ} : ∀ (ops : List (LUExpr w)) (s : List String)
    (op : LUExpr w), op ∈ ops → ∃ s', LUExpr.varsAcc op s' ⊆
      ops.foldl (fun s op => LUExpr.varsAcc op s) s
  | [], _, _, h => absurd h (List.not_mem_nil _)
  | o :: rest, s, op, h => by
      rcases List.mem_cons.mp h with h1 | h2
      · subst h1
        exact ⟨s, foldl_vars_sub rest _⟩
      · exact foldl_vars_mem rest _ op h2

theorem foldl_vars_nodup {w : ℕ} : ∀ (ops : List (LUExpr w))
    (s : List String), s.Nodup →
    (ops.foldl (fun s op => LUExpr.varsAcc op s) s).Nodup
  | [], _, h => h
  | op :: rest, s, h => foldl_vars_nodup rest _ (luVarsAcc_nodup op s h)

theorem rewriteVars_nodup {w : ℕ} (expr : LUExpr w)
    (ops : List (LUExpr w)) : (rewriteVars expr ops).Nodup :=
  foldl_vars_nodup ops _ (luVarsAcc_nodup expr [] List.nodup_nil)

theorem foldl_add_shift {w : ℕ} : ∀ (l : List (M w)) (a : M w),
    l.foldl (fun x y => x + y) a = a + l.foldl (fun x y => x + y) 0
  | [], a => (add_zero a).symm
  | x :: l, a => by
      show l.foldl _ (a + x) = a + l.foldl _ (0 + x)
      rw [foldl_add_shift l (a + x), foldl_add_shift l (0 + x)]
      ring

theorem LUExpr.eval_cons {w : ℕ} (t : M w × UExpr) (l : LUExpr w)
    (v : String → M w) :
    LUExpr.eval (t :: l) v = t.1 * t.2.eval v + LUExpr.eval l v := by
  unfold LUExpr.eval
  rw [List.map_cons, List.foldl_cons, foldl_add_shift]
  ring

theorem LUExpr.eval_append {w : ℕ} : ∀ (l1 l2 : LUExpr w)
    (v : String → M w),
    LUExpr.eval (l1 ++ l2) v = LUExpr.eval l1 v + LUExpr.eval l2 v
  | [], l2, v => by
      show LUExpr.eval l2 v = LUExpr.eval [] v + LUExpr.eval l2 v
      show LUExpr.eval l2 v = 0 + LUExpr.eval l2 v
      ring
  | t :: l1, l2, v => by
      rw [List.cons_append, LUExpr.eval_cons, LUExpr.eval_cons,
        LUExpr.eval_append l1 l2 v]
      ring

theorem UExpr.eval_agree {w : ℕ} : ∀ (e : UExpr) (s : List String)
    (v1 v2 : String → M w), (∀ c ∈ e.varsAcc s, v1 c = v2 c) →
    e.eval v1 = e.eval v2
  | .Ones, _, _, _, _ => rfl
  | .Var c, s, v1, v2, h => by
      apply h
      show c ∈ if c ∈ s then s else s ++ [c]
      by_cases hc : c ∈ s
      · rw [if_pos hc]
        exact hc
      · rw [if_neg hc]
        exact List.mem_append_right s (List.mem_singleton.mpr rfl)
  | .Not e, s, v1, v2, h => by
      show bitNot (e.eval v1) = bitNot (e.eval v2)
      rw [UExpr.eval_agree e s v1 v2 h]
  | .And e1 e2, s, v1, v2, h => by
      show bitAnd (e1.eval v1) (e2.eval v1) = bitAnd (e1.eval v2) (e2.eval v2)
      rw [UExpr.eval_agree e1 s v1 v2
          (fun c hc => h c (UExpr.varsAcc_sub e2 _ hc)),
        UExpr.eval_agree e2 (e1.varsAcc s) v1 v2 (fun c hc => h c hc)]
  | .Or e1 e2, s, v1, v2, h => by
      show bitOr (e1.eval v1) (e2.eval v1) = bitOr (e1.eval v2) (e2.eval v2)
      rw [UExpr.eval_agree e1 s v1 v2
          (fun c hc => h c (UExpr.varsAcc_sub e2 _ hc)),
        UExpr.eval_agree e2 (e1.varsAcc s) v1 v2 (fun c hc => h c hc)]
  | .Xor e1 e2, s, v1, v2, h => by
      show bitXor (e1.eval v1) (e2.eval v1) = bitXor (e1.eval v2) (e2.eval v2)
      rw [UExpr.eval_agree e1 s v1 v2
          (fun c hc => h c (UExpr.varsAcc_sub e2 _ hc)),
        UExpr.eval_agree e2 (e1.varsAcc s) v1 v2 (fun c hc => h c hc)]

theorem luEval_agree {w : ℕ} : ∀ (l : LUExpr w) (s : List String)
    (v1 v2 : String → M w), (∀ c ∈ LUExpr.varsAcc l s, v1 c = v2 c) →
    LUExpr.eval l v1 = LUExpr.eval l v2
  | [], _, _, _, _ => rfl
  | t :: rest, s, v1, v2, h => by
      rw [LUExpr.eval_cons, LUExpr.eval_cons,
        UExpr.eval_agree t.2 s v1 v2
          (fun c hc => h c (luVarsAcc_sub rest _ hc)),
        luEval_agree rest (t.2.varsAcc s) v1 v2 (fun c hc => h c hc)]

theorem eval_addTerm {w : ℕ} : ∀ (acc : List (M w × UExpr))
    (t : M w × UExpr) (v : String → M w),
    LUExpr.eval (addTerm acc t) v = LUExpr.eval acc v + t.1 * t.2.eval v
  | [], t, v => by
      show LUExpr.eval [t] v = LUExpr.eval [] v + t.1 * t.2.eval v
      rw [LUExpr.eval_cons]
      show t.1 * t.2.eval v + 0 = 0 + t.1 * t.2.eval v
      ring
  | (f, u) :: rest, t, v => by
      show LUExpr.eval
        (if u = t.2 then (f + t.1, u) :: rest else (f, u) :: addTerm rest t)
          v = _
      by_cases hu : u = t.2
      · rw [if_pos hu, LUExpr.eval_cons, LUExpr.eval_cons, hu]
        ring
      · rw [if_neg hu, LUExpr.eval_cons, LUExpr.eval_cons,
          eval_addTerm rest t v]
        ring

theorem eval_foldl_addTerm {w : ℕ} : ∀ (ts : List (M w × UExpr))
    (acc : List (M w × UExpr)) (v : String → M w),
    LUExpr.eval (ts.foldl addTerm acc) v =
      LUExpr.eval acc v + LUExpr.eval ts v
  | [], acc, v => by
      show LUExpr.eval acc v = LUExpr.eval acc v + LUExpr.eval [] v
      show LUExpr.eval acc v = LUExpr.eval acc v + 0
      ring
  | t :: ts, acc, v => by
      rw [List.foldl_cons, eval_foldl_addTerm ts _ v, eval_addTerm,
        LUExpr.eval_cons]
      ring

theorem eval_filter_zero {w : ℕ} : ∀ (l : List (M w × UExpr))
    (v : String → M w),
    LUExpr.eval (l.filter fun t => ¬ t.1 = 0) v = LUExpr.eval l v
  | [], _ => rfl
  | t :: rest, v => by
      rw [List.filter_cons]
      by_cases ht : t.1 = 0
      · rw [if_neg (by simp [ht]), LUExpr.eval_cons, ht,
          eval_filter_zero rest v]
        ring
      · rw [if_pos (by simp [ht]), LUExpr.eval_cons, LUExpr.eval_cons,
          eval_filter_zero rest v]

theorem eval_scale_map {w : ℕ} : ∀ (op : LUExpr w) (a : M w)
    (v : String → M w),
    LUExpr.eval (op.map fun t => (a * t.1, t.2)) v = a * LUExpr.eval op v
  | [], a, v => by
      show (0 : M w) = a * 0
      ring
  | t :: rest, a, v => by
      rw [List.map_cons, LUExpr.eval_cons, LUExpr.eval_cons,
        eval_scale_map rest a v]
      show a * t.1 * t.2.eval v + a * LUExpr.eval rest v = _
      ring

theorem rowIndex_lt {w : ℕ} : ∀ (vlist : List String)
    (val : String → M w), rowIndex vlist val < 2 ^ vlist.length
  | [], _ => by
      show 0 < 2 ^ 0
      norm_num
  | c :: rest, val => by
      show (if val c = 0 then 0 else 1) + 2 * rowIndex rest val <
        2 ^ (rest.length + 1)
      have h1 := rowIndex_lt rest val
      rw [pow_succ]
      by_cases hv : val c = 0
      · rw [if_pos hv]
        omega
      · rw [if_neg hv]
        omega

theorem rowVal_agree {w : ℕ} : ∀ (vlist : List String), vlist.Nodup →
    ∀ (val : String → M w), (∀ c ∈ vlist, val c = 0 ∨ val c = 0 - 1) →
    ∀ c ∈ vlist, rowVal vlist (rowIndex vlist val) c = val c
  | [], _, _, _, _, hc => absurd hc (List.not_mem_nil _)
  | c0 :: rest, hnd, val, h01, c, hc => by
      have hnd1 : c0 ∉ rest := (List.nodup_cons.mp hnd).1
      have hnd2 : rest.Nodup := (List.nodup_cons.mp hnd).2
      have hri : rowIndex (c0 :: rest) val =
          (if val c0 = 0 then 0 else 1) + 2 * rowIndex rest val := rfl
      rcases List.mem_cons.mp hc with he | hm
      · subst he
        show (if ((rowIndex (c :: rest) val) >>>
            (List.indexOf c (c :: rest))) &&& 1 = 0 then (0 : M w)
            else 0 - 1) = val c
        rw [List.indexOf_cons_self, Nat.shiftRight_zero, Nat.and_one_is_mod,
          hri]
        by_cases hv : val c = 0
        · rw [if_pos hv, if_pos (by omega)]
          exact hv.symm
        · rw [if_neg hv, if_neg (by omega)]
          rcases h01 c hc with h0 | h1
          · exact absurd h0 hv
          · exact h1.symm
      · have hne : c ≠ c0 := fun he => hnd1 (he ▸ hm)
        show (if ((rowIndex (c0 :: rest) val) >>>
            (List.indexOf c (c0 :: rest))) &&& 1 = 0 then (0 : M w)
            else 0 - 1) = val c
        rw [List.indexOf_cons_ne rest (Ne.symm hne)]
        have hsh : (rowIndex (c0 :: rest) val) >>>
            (Nat.succ (List.indexOf c rest)) =
            (rowIndex rest val) >>> (List.indexOf c rest) := by
          rw [hri, Nat.shiftRight_eq_div_pow, Nat.shiftRight_eq_div_pow]
          have hb : (if val c0 = 0 then 0 else 1) ≤ 1 := by
            split <;> omega
          rw [pow_succ, Nat.mul_comm (2 ^ List.indexOf c rest) 2,
            ← Nat.div_div_eq_div_mul]
          congr 1
          omega
        rw [hsh]
        exact rowVal_agree rest hnd2 val
          (fun c' hc' => h01 c' (List.mem_cons_of_mem c0 hc')) c hm

theorem snd_mem_enumFrom {α : Type} : ∀ (l : List α) (k : ℕ) (p : ℕ × α),
    p ∈ l.enumFrom k → p.2 ∈ l
  | [], _, _, h => absurd h (List.not_mem_nil _)
  | x :: l, k, p, h => by
      have hcons : (x :: l).enumFrom k = (k, x) :: l.enumFrom (k + 1) := rfl
      rw [hcons] at h
      rcases List.mem_cons.mp h with h1 | h2
      · rw [h1]
        exact List.mem_cons_self x l
      · exact List.mem_cons_of_mem x (snd_mem_enumFrom l (k + 1) p h2)

theorem mulVec_foldl_ker {w m c : ℕ} (A : Mat w m c) (rand : ℕ → M w) :
    ∀ (l : List (ℕ × (Fin c → M w))) (acc : Fin c → M w),
    (∀ p ∈ l, Matrix.mulVec A p.2 = 0) →
    Matrix.mulVec A
        (l.foldl (fun acc kb => acc + fun j => kb.2 j * rand kb.1) acc) =
      Matrix.mulVec A acc
  | [], acc, _ => rfl
  | p :: l, acc, h => by
      rw [List.foldl_cons,
        mulVec_foldl_ker A rand l _ (fun q hq => h q (List.mem_cons_of_mem p hq))]
      have hsm : (fun j => p.2 j * rand p.1) = rand p.1 • p.2 := by
        funext j
        rw [Pi.smul_apply, smul_eq_mul, mul_comm]
      rw [Matrix.mulVec_add, hsm, Matrix.mulVec_smul,
        h p (List.mem_cons_self p l), smul_zero, add_zero]

theorem eval_flatten_map {w : ℕ} (ops : List (LUExpr w))
    (sol : Fin ops.length → M w) (v : String → M w) :
    ∀ (js : List (Fin ops.length)),
    LUExpr.eval ((js.map fun j =>
        (ops.get j).map fun t => (sol j * t.1, t.2)).flatten) v =
      ((js.map fun j => sol j * LUExpr.eval (ops.get j) v)).sum
  | [] => rfl
  | j :: js => by
      rw [List.map_cons, List.flatten_cons, LUExpr.eval_append,
        eval_scale_map, List.map_cons, List.sum_cons,
        eval_flatten_map ops sol v js]

/-- C1: if `rewrite(e, ops, randomize)` returns `Some(r)`, then for every
valuation assigning each collected variable (those occurring in `e` or in
any of the `ops`) either `0` or the all-ones value `-1`, the result
evaluates as `e` does — for every choice of inputs, randomize flag and
random scalars. -/
theorem rewrite_spec {w : ℕ} (fuel : ℕ) (expr : LUExpr w)
    (ops : List (LUExpr w)) (randomize : Bool) (rand : ℕ → M w)
    (r : LUExpr w) (val : String → M w)
    (h : rewrite fuel expr ops randomize rand = some r)
    (hval : ∀ c ∈ rewriteVars expr ops, val c = 0 ∨ val c = 0 - 1) :
    LUExpr.eval r val = LUExpr.eval expr val := by
  unfold rewrite at h
  rcases hsc : solveCongruences fuel (rewriteMat expr ops)
      (rewriteVec expr ops) with _ | ⟨off, basis⟩
  · rw [hsc] at h
    exact absurd h (by simp)
  rw [hsc] at h
  dsimp only at h
  set sol : Fin ops.length → M w :=
    (if randomize then
      basis.enum.foldl (fun acc kb => acc + fun j => kb.2 j * rand kb.1) off
    else off) with hsol
  have hr : r = ((((List.finRange ops.length).map fun j =>
      (ops.get j).map fun t => (sol j * t.1, t.2)).flatten).foldl addTerm
        []).filter fun t => ¬ t.1 = 0 := (Option.some.inj h).symm
  obtain ⟨hAoff, hker, _⟩ :=
    solveCongruences_sound fuel (rewriteMat expr ops) (rewriteVec expr ops)
      off basis hsc
  have hAsol : Matrix.mulVec (rewriteMat expr ops) sol =
      rewriteVec expr ops := by
    rw [hsol]
    by_cases hrand : randomize = true
    · have hk : ∀ p ∈ basis.enum,
          Matrix.mulVec (rewriteMat expr ops) p.2 = 0 :=
        fun p hp => hker p.2 (snd_mem_enumFrom basis 0 p hp)
      rw [if_pos hrand, mulVec_foldl_ker _ rand basis.enum off hk, hAoff]
    · rw [if_neg hrand]
      exact hAoff
  set vl := rewriteVars expr ops with hvl
  have hi0 : rowIndex vl val < 2 ^ vl.length := rowIndex_lt vl val
  have hagree : ∀ c ∈ vl, rowVal vl (rowIndex vl val) c = val c :=
    rowVal_agree vl (rewriteVars_nodup expr ops) val hval
  have hrow := congrFun hAsol ⟨rowIndex vl val, hi0⟩
  rw [mulVec_entry] at hrow
  have hA : ∀ j : Fin ops.length,
      rewriteMat expr ops ⟨rowIndex vl val, hi0⟩ j =
        LUExpr.eval (ops.get j) val := by
    intro j
    show LUExpr.eval (ops.get j) (rowVal vl (rowIndex vl val)) =
      LUExpr.eval (ops.get j) val
    obtain ⟨s1, hs1⟩ := foldl_vars_mem ops (LUExpr.varsAcc expr [])
      (ops.get j) (List.get_mem ops j.1 j.2)
    exact luEval_agree (ops.get j) s1 _ _
      (fun c hc => hagree c (hs1 hc))
  have hb : rewriteVec expr ops ⟨rowIndex vl val, hi0⟩ =
      LUExpr.eval expr val := by
    show LUExpr.eval expr (rowVal vl (rowIndex vl val)) =
      LUExpr.eval expr val
    exact luEval_agree expr [] _ _
      (fun c hc => hagree c (foldl_vars_sub ops _ hc))
  rw [hb] at hrow
  have hrow2 : (∑ j, LUExpr.eval (ops.get j) val * sol j) =
      LUExpr.eval expr val := by
    rw [← hrow]
    exact Finset.sum_congr rfl (fun j _ => by rw [hA j])
  rw [hr, eval_filter_zero, eval_foldl_addTerm,
    eval_flatten_map ops sol val (List.finRange ops.length)]
  show (0 : M w) + _ = _
  rw [zero_add, ← Fin.sum_univ_def, ← hrow2]
  exact Finset.sum_congr rfl (fun j _ => mul_comm _ _)

set_option maxRecDepth 8000 in
theorem rewrite_spec_witness :
    rewrite 36 [((1 : M 3), UExpr.Var "x")]
        [[((1 : M 3), UExpr.Var "x"), ((1 : M 3), UExpr.Var "y")],
         [((1 : M 3), UExpr.Var "y")]] false (fun _ => 0) =
      some [((1 : M 3), UExpr.Var "x")] ∧
    (∀ c ∈ rewriteVars [((1 : M 3), UExpr.Var "x")]
        [[((1 : M 3), UExpr.Var "x"), ((1 : M 3), UExpr.Var "y")],
         [((1 : M 3), UExpr.Var "y")]],
      (fun c : String => if c = "x" then (0 : M 3) - 1 else 0) c = 0 ∨
      (fun c : String => if c = "x" then (0 : M 3) - 1 else 0) c = 0 - 1) ∧
    LUExpr.eval [((1 : M 3), UExpr.Var "x")]
        (fun c : String => if c = "x" then (0 : M 3) - 1 else 0) =
      LUExpr.eval [((1 : M 3), UExpr.Var "x")]
        (fun c : String => if c = "x" then (0 : M 3) - 1 else 0) := by
  have hrun : rewrite 36 [((1 : M 3), UExpr.Var "x")]
      [[((1 : M 3), UExpr.Var "x"), ((1 : M 3), UExpr.Var "y")],
       [((1 : M 3), UExpr.Var "y")]] false (fun _ => 0) =
      some [((1 : M 3), UExpr.Var "x")] := by decide
  refine ⟨hrun, by decide, ?_⟩
  exact rewrite_spec 36 _ _ false _ _ _ hrun (by decide)

/-- `i.trailing_zeros()`: the number of trailing zero bits, by repeated
halving with fuel (`twoVal n` runs it with fuel `n`, always enough). -/
def twoValFuel : ℕ → ℕ → ℕ
  | 0, _ => 0
  | fuel + 1, n => if n % 2 = 0 ∧ n ≠ 0 then twoValFuel fuel (n / 2) + 1 else 0

/-- The 2-adic valuation of `n` (trailing zeros). -/
def twoVal (n : ℕ) : ℕ := twoValFuel n n

/-- Adding a constant onto the head (degree-0) coefficient. -/
def polyAddHead {w : ℕ} (c : M w) : List (M w) → List (M w)
  | [] => [c]
  | d :: rest => (c + d) :: rest

/-- `Polynomial::mul_lin(a)`: multiply by `(X - a)` (shift the coefficients
up and subtract `a` times the original). -/
def polyMulLin {w : ℕ} (a : M w) : List (M w) → List (M w)
  | [] => [0]
  | c :: rest => (0 - a * c) :: polyAddHead c (polyMulLin a rest)

/-- `p <<= e`: shift every coefficient left by `e` bits. -/
def polyShl {w : ℕ} (p : List (M w)) (e : ℕ) : List (M w) :=
  p.map fun c => ((c.val <<< e : ℕ) : M w)

/-- `Polynomial::truncate`: drop trailing zero coefficients. -/
def polyTruncate {w : ℕ} (p : List (M w)) : List (M w) :=
  p.take (p.length - (p.reverse.takeWhile fun c => c = 0).length)

/-- The polynomial `(X - 0)(X - 1)⋯(X - (i-1))` as built by the `mul_lin`
loop of `ZeroIdeal::init` (starting from the constant `1`). -/
def prodLin {w : ℕ} : ℕ → List (M w)
  | 0 => [1]
  | i + 1 => polyMulLin ((i : ℕ) : M w) (prodLin i)

/-- The generator loop of `ZeroIdeal::init()`: at each even `i`, `div` has
accumulated the trailing zeros of `2, 4, …, i-2`; add those of `i`; if the
exponent `w - div` would be non-positive, push the final (unshifted)
product and stop, else push `2^(w-div) · ∏(X - j)` truncated and continue
with `i + 2`. -/
def zeroIdealLoop {w : ℕ} : ℕ → ℕ → ℕ → List (List (M w))
  | 0, _, _ => []
  | fuel + 1, i, div =>
    let div2 := div + twoVal i
    if w ≤ div2 then
      [polyTruncate (prodLin i)]
    else
      polyTruncate (polyShl (prodLin i) (w - div2)) ::
        zeroIdealLoop fuel (i + 2) div2

/-- `ZeroIdeal::<T>::init()` for the width-`w` integer type: the generator
list, starting at `i = 2` with `div = 0`. -/
def zeroIdeal (w : ℕ) : List (List (M w)) :=
  zeroIdealLoop (w + 1) 2 0

theorem polyAddHead_eval {w : ℕ} (c : M w) (p : List (M w)) (x : M w) :
    evalPoly (polyAddHead c p) x = c + evalPoly p x := by
  cases p with
  | nil =>
      show (0 : M w) * x + c = c + 0
      ring
  | cons d rest =>
      show evalPoly rest x * x + (c + d) = c + (evalPoly rest x * x + d)
      ring

theorem polyMulLin_eval {w : ℕ} (a : M w) : ∀ (p : List (M w)) (x : M w),
    evalPoly (polyMulLin a p) x = (x - a) * evalPoly p x
  | [], x => by
      show (0 : M w) * x + 0 = (x - a) * 0
      ring
  | c :: rest, x => by
      show evalPoly (polyAddHead c (polyMulLin a rest)) x * x + (0 - a * c) =
        (x - a) * (evalPoly rest x * x + c)
      rw [polyAddHead_eval, polyMulLin_eval a rest x]
      ring

theorem polyShl_eval {w : ℕ} : ∀ (p : List (M w)) (e : ℕ) (x : M w),
    evalPoly (polyShl p e) x = 2 ^ e * evalPoly p x
  | [], e, x => by
      show (0 : M w) = 2 ^ e * 0
      ring
  | c :: rest, e, x => by
      show evalPoly (polyShl rest e) x * x + ((c.val <<< e : ℕ) : M w) =
        2 ^ e * (evalPoly rest x * x + c)
      rw [polyShl_eval rest e x]
      have hc : (((c.val <<< e : ℕ)) : M w) = 2 ^ e * c := by
        rw [Nat.shiftLeft_eq]
        push_cast
        rw [ZMod.natCast_zmod_val]
        ring
      rw [hc]
      ring

theorem evalPoly_zeros {w : ℕ} : ∀ (z : List (M w)) (x : M w),
    (∀ c ∈ z, c = 0) → evalPoly z x = 0
  | [], _, _ => rfl
  | c :: rest, x, h => by
      show evalPoly rest x * x + c = 0
      rw [evalPoly_zeros rest x (fun d hd => h d (List.mem_cons_of_mem c hd)),
        h c (List.mem_cons_self c rest)]
      ring

theorem evalPoly_append_zeros {w : ℕ} : ∀ (q z : List (M w)) (x : M w),
    (∀ c ∈ z, c = 0) → evalPoly (q ++ z) x = evalPoly q x
  | [], z, x, h => by
      show evalPoly z x = evalPoly [] x
      rw [evalPoly_zeros z x h]
      rfl
  | c :: q, z, x, h => by
      show evalPoly (q ++ z) x * x + c = evalPoly q x * x + c
      rw [evalPoly_append_zeros q z x h]

theorem polyTruncate_eval {w : ℕ} (p : List (M w)) (x : M w) :
    evalPoly (polyTruncate p) x = evalPoly p x := by
  have h1 : (p.reverse.takeWhile fun c => decide (c = 0)) ++
      (p.reverse.dropWhile fun c => decide (c = 0)) = p.reverse :=
    List.takeWhile_append_dropWhile _ _
  have hp : p = (p.reverse.dropWhile fun c => decide (c = 0)).reverse ++
      (p.reverse.takeWhile fun c => decide (c = 0)).reverse := by
    rw [← List.reverse_append, h1, List.reverse_reverse]
  set n : ℕ :=
    p.length - ((p.reverse.takeWhile fun c => decide (c = 0))).length with hn
  have hlen : ((p.reverse.dropWhile fun c => decide (c = 0)).reverse).length =
      n := by
    rw [List.length_reverse, hn]
    have h2 := congrArg List.length h1
    rw [List.length_append, List.length_reverse] at h2
    omega
  have hz : ∀ c ∈ (p.reverse.takeWhile fun c => decide (c = 0)).reverse,
      c = 0 := by
    intro c hc
    have h4 : c ∈ p.reverse.takeWhile fun c => decide (c = 0) :=
      List.mem_reverse.mp hc
    have h5 := @List.mem_takeWhile_imp (M w)
      (fun c : M w => decide (c = 0)) p.reverse c h4
    exact of_decide_eq_true h5
  have htr : polyTruncate p =
      (p.reverse.dropWhile fun c => decide (c = 0)).reverse := by
    show p.take n = _
    conv_lhs => rw [hp]
    exact List.take_left' hlen
  rw [htr]
  conv_rhs => rw [hp]
  exact (evalPoly_append_zeros _ _ x hz).symm

theorem polyAddHead_ne_nil {w : ℕ} (c : M w) (q : List (M w)) :
    polyAddHead c q ≠ [] := by
  cases q <;> simp [polyAddHead]

theorem polyAddHead_length {w : ℕ} (c : M w) (q : List (M w))
    (hq : q ≠ []) : (polyAddHead c q).length = q.length := by
  cases q with
  | nil => exact absurd rfl hq
  | cons d r => rfl

theorem polyMulLin_ne_nil {w : ℕ} (a : M w) (p : List (M w)) :
    polyMulLin a p ≠ [] := by
  cases p <;> simp [polyMulLin]

theorem polyMulLin_length {w : ℕ} (a : M w) : ∀ (p : List (M w)),
    (polyMulLin a p).length = p.length + 1
  | [] => rfl
  | c :: rest => by
      show (polyAddHead c (polyMulLin a rest)).length + 1 = rest.length + 1 + 1
      rw [polyAddHead_length c _ (polyMulLin_ne_nil a rest),
        polyMulLin_length a rest]

theorem prodLin_length {w : ℕ} : ∀ (i : ℕ),
    (prodLin (w := w) i).length = i + 1
  | 0 => rfl
  | i + 1 => by
      show (polyMulLin ((i : ℕ) : M w) (prodLin i)).length = i + 2
      rw [polyMulLin_length, prodLin_length i]

theorem polyMulLin_last {w : ℕ} (a : M w) : ∀ (p : List (M w)) (c : M w),
    p.getLast? = some c → (polyMulLin a p).getLast? = some c
  | [], c, h => absurd h (by simp)
  | [d], c, h => by
      have hd : d = c := by
        have h2 : some d = some c := h
        exact Option.some.inj h2
      show ((0 - a * d) :: polyAddHead d (polyMulLin a [])).getLast? = some c
      show ((0 - a * d) :: [d + 0]).getLast? = some c
      rw [List.getLast?_cons_cons]
      show some (d + 0) = some c
      rw [add_zero, hd]
  | d :: e :: rest2, c, h => by
      rw [List.getLast?_cons_cons] at h
      have ih := polyMulLin_last a (e :: rest2) c h
      cases hcase : polyAddHead e (polyMulLin a rest2) with
      | nil => exact absurd hcase (polyAddHead_ne_nil e _)
      | cons f q =>
          have hq : polyMulLin a (e :: rest2) = (0 - a * e) :: f :: q := by
            rw [show polyMulLin a (e :: rest2) =
              (0 - a * e) :: polyAddHead e (polyMulLin a rest2) from rfl,
              hcase]
          rw [hq] at ih
          rw [List.getLast?_cons_cons] at ih
          have hfull : polyMulLin a (d :: e :: rest2) =
              (0 - a * d) :: (d + (0 - a * e)) :: f :: q := by
            show (0 - a * d) :: polyAddHead d (polyMulLin a (e :: rest2)) = _
            rw [hq]
            rfl
          rw [hfull, List.getLast?_cons_cons, List.getLast?_cons_cons]
          exact ih

theorem prodLin_last {w : ℕ} : ∀ (i : ℕ),
    (prodLin (w := w) i).getLast? = some 1
  | 0 => rfl
  | i + 1 => polyMulLin_last _ (prodLin i) 1 (prodLin_last i)

theorem polyShl_last {w : ℕ} (p : List (M w)) (e : ℕ) (c : M w)
    (h : p.getLast? = some c) :
    (polyShl p e).getLast? = some ((c.val <<< e : ℕ) : M w) := by
  unfold polyShl
  rw [List.getLast?_map, h]
  rfl

theorem polyTruncate_of_last_ne {w : ℕ} (p : List (M w)) (c : M w)
    (hc : p.getLast? = some c) (h : c ≠ 0) : polyTruncate p = p := by
  have h1 : (p.reverse.takeWhile fun c => decide (c = 0)) = [] := by
    cases hrev : p.reverse with
    | nil => rfl
    | cons d q =>
        have hd : d = c := by
          have h2 := List.head?_reverse p
          rw [hrev, hc] at h2
          exact Option.some.inj h2
        rw [List.takeWhile_cons, if_neg]
        rw [hd]
        simp [h]
  show p.take (p.length - _) = p
  rw [h1]
  show p.take (p.length - 0) = p
  rw [Nat.sub_zero]
  exact List.take_length p

theorem prodLin_eval {w : ℕ} : ∀ (i : ℕ) (x : M w),
    evalPoly (prodLin i) x = ∏ j in Finset.range i, (x - (j : M w))
  | 0, x => by
      show (0 : M w) * x + 1 = _
      rw [Finset.prod_range_zero]
      ring
  | i + 1, x => by
      show evalPoly (polyMulLin ((i : ℕ) : M w) (prodLin i)) x = _
      rw [polyMulLin_eval, prodLin_eval i x, Finset.prod_range_succ]
      ring

theorem prod_sub_int {w : ℕ} (i : ℕ) (x : M w) :
    (∏ j in Finset.range i, (x - (j : M w))) =
      (((∏ j in Finset.range i, ((x.val : ℤ) - (j : ℤ))) : ℤ) : M w) := by
  push_cast
  refine Finset.prod_congr rfl fun j _ => ?_
  rw [ZMod.natCast_zmod_val]

theorem factorial_dvd_prod (i k : ℕ) :
    ((Nat.factorial i : ℕ) : ℤ) ∣
      ∏ j in Finset.range i, ((k : ℤ) - (j : ℤ)) := by
  by_cases hk : k < i
  · rw [Finset.prod_eq_zero (Finset.mem_range.mpr hk) (sub_self ((k : ℕ) : ℤ))]
    exact dvd_zero _
  · push_neg at hk
    have h1 : ∏ j in Finset.range i, ((k : ℤ) - (j : ℤ)) =
        ((Nat.descFactorial k i : ℕ) : ℤ) := by
      rw [Nat.descFactorial_eq_prod_range, Nat.cast_prod]
      refine Finset.prod_congr rfl fun j hj => ?_
      rw [Nat.cast_sub (le_of_lt (lt_of_lt_of_le (Finset.mem_range.mp hj) hk))]
    rw [h1]
    exact_mod_cast Nat.factorial_dvd_descFactorial k i

theorem twoValFuel_dvd : ∀ (fuel n : ℕ), 2 ^ twoValFuel fuel n ∣ n
  | 0, n => by
      show 2 ^ 0 ∣ n
      simp
  | fuel + 1, n => by
      show 2 ^ (if n % 2 = 0 ∧ n ≠ 0 then twoValFuel fuel (n / 2) + 1
        else 0) ∣ n
      by_cases h : n % 2 = 0 ∧ n ≠ 0
      · rw [if_pos h]
        obtain ⟨m, hm⟩ := twoValFuel_dvd fuel (n / 2)
        refine ⟨m, ?_⟩
        calc n = 2 * (n / 2) := by omega
          _ = 2 ^ (twoValFuel fuel (n / 2) + 1) * m := by
              conv_lhs => rw [hm]
              ring
      · rw [if_neg h]
        simp

theorem twoVal_dvd (n : ℕ) : 2 ^ twoVal n ∣ n := twoValFuel_dvd n n

theorem zeroIdealLoop_sound {w : ℕ} : ∀ (fuel i div : ℕ), 2 ≤ i →
    2 ^ div ∣ Nat.factorial (i - 2) →
    ∀ g ∈ zeroIdealLoop (w := w) fuel i div, ∀ x : M w, evalPoly g x = 0
  | 0, _, _, _, _, g, hg => absurd hg (List.not_mem_nil g)
  | fuel + 1, i, div, h2, hdvd, g, hg => by
      intro x
      obtain ⟨k, rfl⟩ : ∃ k, i = k + 2 := ⟨i - 2, by omega⟩
      have hdvd0 : 2 ^ div ∣ Nat.factorial k := hdvd
      have hdvd2 : 2 ^ (div + twoVal (k + 2)) ∣ Nat.factorial (k + 2) := by
        obtain ⟨a, ha⟩ := hdvd0
        obtain ⟨b, hb⟩ := twoVal_dvd (k + 2)
        refine ⟨b * ((k + 1) * a), ?_⟩
        have hf : Nat.factorial (k + 2) =
            (k + 2) * ((k + 1) * Nat.factorial k) := rfl
        rw [hf, ha]
        nth_rewrite 1 [hb]
        rw [pow_add]
        ring
      obtain ⟨mz, hmz⟩ : ∃ mz : ℤ,
          ∏ j in Finset.range (k + 2), ((x.val : ℤ) - (j : ℤ)) =
            ((2 ^ (div + twoVal (k + 2)) : ℕ) : ℤ) * mz := by
        obtain ⟨cz, hcz⟩ := factorial_dvd_prod (k + 2) x.val
        obtain ⟨d, hd⟩ := hdvd2
        refine ⟨(d : ℤ) * cz, ?_⟩
        rw [hcz, hd]
        push_cast
        ring
      have hev : evalPoly (prodLin (k + 2)) x =
          ((2 ^ (div + twoVal (k + 2)) : ℕ) : M w) * ((mz : ℤ) : M w) := by
        rw [prodLin_eval, prod_sub_int, hmz]
        push_cast
        ring
      have hgs : g ∈ (if w ≤ div + twoVal (k + 2) then
          [polyTruncate (prodLin (k + 2))]
        else
          polyTruncate (polyShl (prodLin (k + 2)) (w - (div + twoVal (k + 2)))) ::
            zeroIdealLoop fuel (k + 2 + 2) (div + twoVal (k + 2))) := hg
      by_cases hle : w ≤ div + twoVal (k + 2)
      · rw [if_pos hle] at hgs
        have hgeq : g = polyTruncate (prodLin (k + 2)) := by
          rcases List.mem_singleton.mp hgs with h5
          exact h5
        rw [hgeq, polyTruncate_eval, hev]
        have hz : ((2 ^ (div + twoVal (k + 2)) : ℕ) : M w) = 0 := by
          rw [ZMod.natCast_zmod_eq_zero_iff_dvd]
          exact pow_dvd_pow 2 hle
        rw [hz, zero_mul]
      · rw [if_neg hle] at hgs
        rcases List.mem_cons.mp hgs with h5 | h5
        · rw [h5, polyTruncate_eval, polyShl_eval, hev]
          have hz : (2 : M w) ^ (w - (div + twoVal (k + 2))) *
              ((2 ^ (div + twoVal (k + 2)) : ℕ) : M w) = 0 := by
            have h6 : (2 : M w) ^ (w - (div + twoVal (k + 2))) *
                ((2 ^ (div + twoVal (k + 2)) : ℕ) : M w) =
                ((2 ^ (w - (div + twoVal (k + 2)) + (div + twoVal (k + 2))) :
                  ℕ) : M w) := by
              push_cast
              ring
            rw [h6]
            have h7 : w - (div + twoVal (k + 2)) + (div + twoVal (k + 2)) =
                w := by omega
            rw [h7]
            exact_mod_cast ZMod.natCast_self (2 ^ w)
          rw [← mul_assoc, hz, zero_mul]
        · exact zeroIdealLoop_sound fuel (k + 2 + 2) (div + twoVal (k + 2))
            (by omega) (by simpa using hdvd2) g h5 x

theorem zeroIdealLoop_chain {w : ℕ} (hw : 1 ≤ w) : ∀ (fuel i div : ℕ),
    1 ≤ div + twoVal i →
    ((zeroIdealLoop (w := w) fuel i div).Chain'
      fun p q => p.length < q.length) ∧
    ∀ g ∈ zeroIdealLoop (w := w) fuel i div, i + 1 ≤ g.length
  | 0, i, div, _ =>
      ⟨List.chain'_nil, fun g hg => absurd hg (List.not_mem_nil g)⟩
  | fuel + 1, i, div, hdiv => by
      haveI : Fact (1 < 2 ^ w) := ⟨Nat.one_lt_two_pow (by omega)⟩
      have hone : (1 : M w) ≠ 0 := one_ne_zero
      have hgs : zeroIdealLoop (w := w) (fuel + 1) i div =
          if w ≤ div + twoVal i then [polyTruncate (prodLin i)]
          else polyTruncate (polyShl (prodLin i) (w - (div + twoVal i))) ::
            zeroIdealLoop fuel (i + 2) (div + twoVal i) := rfl
      by_cases hle : w ≤ div + twoVal i
      · rw [hgs, if_pos hle]
        have htr : polyTruncate (prodLin (w := w) i) = prodLin i :=
          polyTruncate_of_last_ne _ 1 (prodLin_last i) hone
        refine ⟨List.chain'_singleton _, fun g hg => ?_⟩
        rw [List.mem_singleton.mp hg, htr, prodLin_length]
      · rw [hgs, if_neg hle]
        have hlast : (polyShl (prodLin (w := w) i)
            (w - (div + twoVal i))).getLast? =
            some ((((1 : M w).val <<< (w - (div + twoVal i)) : ℕ)) : M w) :=
          polyShl_last _ _ 1 (prodLin_last i)
        have hv1 : (1 : M w).val = 1 := ZMod.val_one _
        have hne : ((((1 : M w).val <<< (w - (div + twoVal i)) : ℕ)) :
            M w) ≠ 0 := by
          rw [hv1, Nat.shiftLeft_eq, one_mul]
          intro hc
          rw [ZMod.natCast_zmod_eq_zero_iff_dvd,
            Nat.pow_dvd_pow_iff_le_right (by norm_num : (1 : ℕ) < 2)] at hc
          omega
        have htr : polyTruncate (polyShl (prodLin (w := w) i)
            (w - (div + twoVal i))) =
            polyShl (prodLin i) (w - (div + twoVal i)) :=
          polyTruncate_of_last_ne _ _ hlast hne
        have hlen : (polyTruncate (polyShl (prodLin (w := w) i)
            (w - (div + twoVal i)))).length = i + 1 := by
          rw [htr]
          show ((prodLin (w := w) i).map _).length = i + 1
          rw [List.length_map, prodLin_length]
        obtain ⟨ihchain, ihbound⟩ := zeroIdealLoop_chain hw fuel (i + 2)
          (div + twoVal i) (by omega)
        constructor
        · rw [List.chain'_cons']
          refine ⟨fun q hq => ?_, ihchain⟩
          have hqm : q ∈ zeroIdealLoop (w := w) fuel (i + 2)
              (div + twoVal i) := List.mem_of_mem_head? hq
          have h6 := ihbound q hqm
          rw [hlen]
          omega
        · intro g hg
          rcases List.mem_cons.mp hg with h5 | h5
          · rw [h5, hlen]
          · have h6 := ihbound g h5
            omega

/-- C6: every generator polynomial produced by `ZeroIdeal::init()` for
ℤ/2^w evaluates to `0` at every element of ℤ/2^w, and the generator list
is sorted by strictly increasing degree (adjacent lengths strictly
increase). -/
theorem zeroIdeal_spec {w : ℕ} :
    (∀ g ∈ zeroIdeal w, ∀ x : M w, evalPoly g x = 0) ∧
    (zeroIdeal w).Chain' fun p q => p.length < q.length := by
  constructor
  · intro g hg x
    exact zeroIdealLoop_sound (w + 1) 2 0 (by omega) (by simp) g hg x
  · rcases Nat.eq_zero_or_pos w with hw | hw
    · subst hw
      exact List.chain'_singleton _
    · exact (zeroIdealLoop_chain hw (w + 1) 2 0 (by decide)).1

theorem zeroIdeal_spec_witness :
    ([(0 : M 2), 2, 2] ∈ zeroIdeal 2 ∧
      evalPoly [(0 : M 2), 2, 2] 3 = 0) ∧
    (zeroIdeal 2).Chain' fun p q => p.length < q.length := by
  have hm : [(0 : M 2), 2, 2] ∈ zeroIdeal 2 := by decide
  exact ⟨⟨hm, zeroIdeal_spec.1 [(0 : M 2), 2, 2] hm 3⟩, zeroIdeal_spec.2⟩

end Mba
